import Mathlib

/-!
# Halley `Painter`: quad batching front end

A shallow embedding of `src/core/src/graphics/painter.cpp`.

* `size_t` is a 64-bit unsigned integer: every `size_t` expression of the source is
  reduced modulo `2 ^ 64`.  `int` has 32 bits, and `int(x)` keeps the low 32 bits of `x`.
* `std::shared_ptr<Material>` is an optional address (`none` is the empty pointer); two
  pointers are equal exactly when the addresses are.  What a material object answers to
  `getVertexStride()` and `getNumPasses()` is looked up in `Env.materials`.
* `vertexBuffer` is a byte vector, a `List Nat`; `vertexData` is the list of the bytes that
  can be read behind the caller's pointer.
* The virtual hooks and collaborators (`doStartRender`, `doEndRender`, `setVertices`,
  `setViewPort`, the backend `drawQuads(int)`, `Material::bind`, the parameter assignment,
  the render target and the camera) are not part of the file: every call to one of them is
  recorded in `Painter.log`, and `Env.fails` says whether the call throws.
* A C++ exception leaves the fields as they were at the throw (`Outcome.thrown`); a failed
  `assert` (the assertions are compiled in), a dereferenced null pointer and an out-of-range
  memory access end the run (`Outcome.fault`).
* `std::vector::resize` always succeeds: running out of memory is not part of the model.
-/

namespace Halley

/-- Number of values of a `size_t`. -/
def SIZE_MOD : Nat := 2 ^ 64

/-- The conversion `int(x)` of a `size_t`: two's complement narrowing to 32 bits. -/
def toInt (x : Nat) : Int :=
  if x % 2 ^ 32 < 2 ^ 31 then ((x % 2 ^ 32 : Nat) : Int) else ((x % 2 ^ 32 : Nat) : Int) - 2 ^ 32

/-- Viewport rectangle (`Rect4i`). -/
structure Rect where
  x : Int
  y : Int
  w : Int
  h : Int
deriving DecidableEq, Repr

/-- The two getters of `Material` that the painter reads. -/
structure Material where
  /-- value of `getVertexStride()`, converted to `size_t` -/
  vertexStride : Nat
  /-- value of `getNumPasses()`, an `int` -/
  numPasses : Int
deriving DecidableEq, Repr

/-- The calls the painter makes, in the order it makes them.  `executeDrawQuads` records the
entry into `Painter::executeDrawQuads`; the others are calls to code outside the file. -/
inductive Call where
  | doStartRender
  | doEndRender
  | executeDrawQuads (material : Nat) (numVertices : Nat) (vertexData : List Nat)
  | setUMvp (material : Nat) (projection : Nat)
  | setVertices (material : Nat) (numVertices : Nat) (vertexData : List Nat)
  | materialBind (material : Nat) (pass : Int)
  | drawQuads (numQuads : Int)
  | renderTargetBind (target : Nat)
  | setViewPort (viewPort : Rect) (changed : Bool)
  | cameraSetViewArea (w : Int) (h : Int)
  | cameraUpdateProjection
deriving DecidableEq, Repr

/-- The fields of `Painter` used by the file, and the calls made so far. -/
structure Painter where
  verticesPending : Nat
  bytesPending : Nat
  materialPending : Option Nat
  vertexBuffer : List Nat
  projection : Nat
  log : List Call
deriving DecidableEq, Repr

/-- What lies outside the file: the material objects, which outside calls throw (given the
calls made before), and the projection a camera reports after `setViewArea` and
`updateProjection`. -/
structure Env where
  materials : Nat → Material
  fails : List Call → Call → Bool
  cameraProjection : Nat → Int → Int → Nat

/-- No outside call throws. -/
def Env.reliable (E : Env) : Prop := ∀ l c, E.fails l c = false

/-- Result of running a member function. -/
inductive Outcome where
  | ok (p : Painter)
  | thrown (p : Painter)
  | fault
deriving DecidableEq, Repr

/-- Sequencing of statements: an exception or a fault skips the rest. -/
def Outcome.bind (o : Outcome) (f : Painter → Outcome) : Outcome :=
  match o with
  | .ok p => f p
  | .thrown p => .thrown p
  | .fault => .fault

/-- A call to code outside the file. -/
def call (E : Env) (c : Call) (p : Painter) : Outcome :=
  if E.fails p.log c then .thrown { p with log := p.log ++ [c] }
  else .ok { p with log := p.log ++ [c] }

/-- One `*dst = *src` on words of `w` bytes, at byte offsets `d` and `s`. -/
def copyWord (w : Nat) (dst : List Nat) (d : Nat) (src : List Nat) (s : Nat) :
    Option (List Nat) :=
  if s + w ≤ src.length ∧ d + w ≤ dst.length then
    some (dst.take d ++ ((src.drop s).take w ++ dst.drop (d + w)))
  else none

/-- The loop of `doMemcpyAlign<T>`: `n` words are left, `s` and `d` are the byte offsets of
`src` and `dst`. -/
def doMemcpyAlignLoop (w : Nat) (src : List Nat) : Nat → Nat → Nat → List Nat → Option (List Nat)
  | 0, _, _, dst => some dst
  | n + 1, s, d, dst =>
    match copyWord w dst d src s with
    | none => none
    | some dst1 => doMemcpyAlignLoop w src n (s + w) (d + w) dst1

/-- `doMemcpyAlign<T>` with `sizeof(T) = w`; `dstBytes` is `dst` at offset `dstOff`. -/
def doMemcpyAlign (w : Nat) (dst : List Nat) (dstOff : Nat) (src : List Nat) (bytes : Nat) :
    Option (List Nat) :=
  doMemcpyAlignLoop w src (bytes / w) 0 dstOff dst

/-- `memcpyAlign`, with `sizeof(size_t) = 8` and `sizeof(int) = 4`. -/
def memcpyAlign (dst : List Nat) (dstOff : Nat) (src : List Nat) (bytes : Nat) :
    Option (List Nat) :=
  if bytes % 8 = 0 then doMemcpyAlign 8 dst dstOff src bytes
  else doMemcpyAlign 4 dst dstOff src bytes

/-- `std::vector::resize(n)`: cut to `n` bytes, or fill up with zero bytes. -/
def resize (buf : List Nat) (n : Nat) : List Nat :=
  buf.take n ++ List.replicate (n - buf.length) 0

/-- The pass loop of `executeDrawQuads`: `fuel` passes are left and `i` is the loop
variable. -/
def passLoop (E : Env) (material : Nat) (numQuads : Int) : Nat → Int → Painter → Outcome
  | 0, _, p => .ok p
  | fuel + 1, i, p =>
    (call E (.materialBind material i) p).bind fun p1 =>
    (call E (.drawQuads numQuads) p1).bind fun p2 =>
    passLoop E material numQuads fuel (i + 1) p2

/-- `Painter::executeDrawQuads`.  The loop `for (int i = 0; i < getNumPasses(); i++)` runs
`getNumPasses()` times, and not at all for a negative count. -/
def executeDrawQuads (E : Env) (material : Nat) (numVertices : Nat) (vertexData : List Nat)
    (p : Painter) : Outcome :=
  let p0 := { p with log := p.log ++ [Call.executeDrawQuads material numVertices vertexData] }
  (call E (.setUMvp material p0.projection) p0).bind fun p1 =>
  (call E (.setVertices material numVertices vertexData) p1).bind fun p2 =>
  passLoop E material (toInt (numVertices / 4)) (E.materials material).numPasses.toNat 0 p2

/-- `Painter::flushPending`. -/
def flushPending (E : Env) (p : Painter) : Outcome :=
  (if p.verticesPending > 0 then
    match p.materialPending with
    | none => Outcome.fault
    | some m => executeDrawQuads E m p.verticesPending p.vertexBuffer p
  else Outcome.ok p).bind fun p1 =>
  .ok { p1 with bytesPending := 0, verticesPending := 0, materialPending := none }

/-- `Painter::flush`. -/
def flush (E : Env) (p : Painter) : Outcome :=
  flushPending E p

/-- `Painter::startRender`. -/
def startRender (E : Env) (p : Painter) : Outcome :=
  call E .doStartRender { p with verticesPending := 0, bytesPending := 0 }

/-- `Painter::endRender`. -/
def endRender (E : Env) (p : Painter) : Outcome :=
  (flush E p).bind fun p1 => call E .doEndRender p1

/-- Lines 55-60 of `Painter::drawQuads`: a submission with another material flushes what is
pending and then takes the new material. -/
def selectMaterial (E : Env) (material : Option Nat) (p : Painter) : Outcome :=
  if material ≠ p.materialPending then
    (if p.materialPending ≠ none then flushPending E p else Outcome.ok p).bind fun p1 =>
    .ok { p1 with materialPending := material }
  else .ok p

/-- Lines 62-71 of `Painter::drawQuads`: grow the buffer if it is too small, copy the
submission behind the pending bytes and advance the counters. -/
def appendVertices (E : Env) (material : Option Nat) (numVertices : Nat) (data : List Nat)
    (p : Painter) : Outcome :=
  match material with
  | none => .fault
  | some m =>
    let dataSize := (numVertices * (E.materials m).vertexStride) % SIZE_MOD
    let requiredSize := (dataSize + p.bytesPending) % SIZE_MOD
    let buf :=
      if p.vertexBuffer.length < requiredSize then
        resize p.vertexBuffer ((requiredSize * 2) % SIZE_MOD)
      else p.vertexBuffer
    match memcpyAlign buf p.bytesPending data dataSize with
    | none => .fault
    | some buf1 =>
      .ok { p with
            vertexBuffer := buf1
            verticesPending := (p.verticesPending + numVertices) % SIZE_MOD
            bytesPending := (p.bytesPending + dataSize) % SIZE_MOD }

/-- `Painter::drawQuads(material, numVertices, vertexData)`: the three assertions, then
`selectMaterial` and `appendVertices`. -/
def drawQuads (E : Env) (material : Option Nat) (numVertices : Nat)
    (vertexData : Option (List Nat)) (p : Painter) : Outcome :=
  if ¬ numVertices > 0 then .fault
  else if ¬ numVertices % 4 = 0 then .fault
  else match vertexData with
  | none => .fault
  | some data =>
    (selectMaterial E material p).bind fun p1 =>
    appendVertices E material numVertices data p1

/-- The render context handed to `bind`: its render target with that target's own viewport,
the context's viewport, and its camera. -/
structure RenderContext where
  renderTarget : Nat
  targetViewPort : Rect
  viewPort : Rect
  camera : Nat
deriving DecidableEq, Repr

/-- `Painter::bind`. -/
def bind (E : Env) (context : RenderContext) (p : Painter) : Outcome :=
  (call E (.renderTargetBind context.renderTarget) p).bind fun p1 =>
  let viewPort := context.viewPort
  (call E (.setViewPort viewPort (decide (viewPort ≠ context.targetViewPort))) p1).bind fun p2 =>
  (call E (.cameraSetViewArea viewPort.w viewPort.h) p2).bind fun p3 =>
  (call E .cameraUpdateProjection p3).bind fun p4 =>
  .ok { p4 with projection := E.cameraProjection context.camera viewPort.w viewPort.h }

/-! ## Reading the log -/

/-- The executions recorded in a log: material, vertex count and vertex data of every entry
into `executeDrawQuads`. -/
def executions : List Call → List (Nat × Nat × List Nat)
  | [] => []
  | .executeDrawQuads m n d :: l => (m, n, d) :: executions l
  | _ :: l => executions l

/-- The calls of the pass loop: `bind(i)` and one backend `drawQuads` per pass. -/
def passCalls (material : Nat) (numQuads : Int) : Nat → Int → List Call
  | 0, _ => []
  | fuel + 1, i =>
    .materialBind material i :: .drawQuads numQuads :: passCalls material numQuads fuel (i + 1)

/-- The calls of one `executeDrawQuads`. -/
def executionCalls (E : Env) (material numVertices : Nat) (vertexData : List Nat)
    (projection : Nat) : List Call :=
  .executeDrawQuads material numVertices vertexData ::
  .setUMvp material projection ::
  .setVertices material numVertices vertexData ::
  passCalls material (toInt (numVertices / 4)) (E.materials material).numPasses.toNat 0

/-- Two painters with the same fields, the log apart. -/
def sameFields (p q : Painter) : Prop :=
  q.verticesPending = p.verticesPending ∧ q.bytesPending = p.bytesPending ∧
  q.materialPending = p.materialPending ∧ q.vertexBuffer = p.vertexBuffer ∧
  q.projection = p.projection

/-- An outcome that returned or threw with the fields of `p`, the log apart. -/
def Outcome.keeps (p : Painter) : Outcome → Prop
  | .ok q => sameFields p q
  | .thrown q => sameFields p q
  | .fault => False

/-! ## Submissions and frames -/

/-- The buffer `appendVertices` copies into: grown to twice the required size when it is too
small. -/
def grownBuffer (buf : List Nat) (required : Nat) : List Nat :=
  if buf.length < required then resize buf (required * 2) else buf

/-- One call `drawQuads(material, numVertices, vertexData)` with non-null arguments. -/
structure Submission where
  material : Nat
  numVertices : Nat
  vertexData : List Nat
deriving DecidableEq, Repr

/-- Number of bytes of a submission: `numVertices` times the stride of its material. -/
def Submission.dataSize (E : Env) (s : Submission) : Nat :=
  s.numVertices * (E.materials s.material).vertexStride

/-- The bytes a submission hands over: the first `dataSize` bytes behind its pointer. -/
def Submission.bytes (E : Env) (s : Submission) : List Nat :=
  s.vertexData.take (s.dataSize E)

/-- A valid submission: a positive number of vertices, a multiple of four, with all their
bytes behind the pointer. -/
def Submission.valid (E : Env) (s : Submission) : Prop :=
  0 < s.numVertices ∧ s.numVertices % 4 = 0 ∧ s.dataSize E ≤ s.vertexData.length

/-- Validity of a submission can be computed. -/
instance (E : Env) (s : Submission) : Decidable (s.valid E) := by
  unfold Submission.valid
  infer_instance

/-- The call `drawQuads` for a submission. -/
def submit (E : Env) (s : Submission) (p : Painter) : Outcome :=
  drawQuads E (some s.material) s.numVertices (some s.vertexData) p

/-- The submissions of a list, one after the other. -/
def submitAll (E : Env) : List Submission → Painter → Outcome
  | [], p => .ok p
  | s :: rest, p => (submit E s p).bind (submitAll E rest)

/-- A frame: `startRender`, the submissions, `endRender`. -/
def frame (E : Env) (subs : List Submission) (p : Painter) : Outcome :=
  (startRender E p).bind fun p1 => (submitAll E subs p1).bind (endRender E)

/-- The end-to-end run of the specification up to the end of the submissions: `startRender`,
`bind`, then two submissions with material `a` and one with material `b`. -/
def endToEnd (E : Env) (context : RenderContext) (a b : Nat) (d1 d2 d3 : List Nat)
    (p : Painter) : Outcome :=
  (startRender E p).bind fun p1 =>
  (bind E context p1).bind fun p2 =>
  submitAll E [⟨a, 4, d1⟩, ⟨a, 8, d2⟩, ⟨b, 4, d3⟩] p2

/-- Sum of the vertex counts of a list of submissions. -/
def totalVertices (subs : List Submission) : Nat :=
  (subs.map fun s => s.numVertices).sum

/-- Sum of the byte counts of a list of submissions. -/
def totalBytes (E : Env) (subs : List Submission) : Nat :=
  (subs.map fun s => s.dataSize E).sum

/-! ## The batches the specification asks for -/

/-- A batch of geometry: a material, a vertex count and the vertex bytes. -/
structure Batch where
  material : Nat
  numVertices : Nat
  vertexBytes : List Nat
deriving DecidableEq, Repr

/-- The batch an execution draws: the bytes of its vertices at the start of the data. -/
def executedBatches (E : Env) (log : List Call) : List Batch :=
  (executions log).map fun e =>
    { material := e.1, numVertices := e.2.1,
      vertexBytes := e.2.2.take (e.2.1 * (E.materials e.1).vertexStride) }

/-- The batch the specification asks for a run of submissions: the material of the run, the
sum of the vertex counts and the bytes of the submissions one after the other. -/
def batchOfRun (E : Env) (run : List Submission) : Batch :=
  { material := (run.head?.map fun s => s.material).getD 0,
    numVertices := totalVertices run,
    vertexBytes := (run.map fun s => s.bytes E).flatten }

/-- The relation that groups consecutive submissions: the same material. -/
def sameMaterial (a b : Submission) : Bool :=
  a.material == b.material

/-- The batches the specification asks for: one for every maximal run of consecutive
submissions with the same material. -/
def expectedBatches (E : Env) (subs : List Submission) : List Batch :=
  (subs.splitBy sameMaterial).map (batchOfRun E)

/-- The pending batch of `p` is the batch of the run `run`, whose material is `m`. -/
def Pending (E : Env) (p : Painter) (run : List Submission) (m : Nat) : Prop :=
  p.materialPending = some m ∧
  batchOfRun E run =
    { material := m, numVertices := p.verticesPending,
      vertexBytes := p.vertexBuffer.take p.bytesPending } ∧
  p.bytesPending = p.verticesPending * (E.materials m).vertexStride ∧
  0 < p.verticesPending ∧ p.bytesPending ≤ p.vertexBuffer.length ∧ run ≠ []

/-! ## The sizes in `drawQuads` and the byte-wise copy -/

/-- The accumulator of `q` is the accumulator of `p`: counters, pending material and buffer. -/
def accumulatorKept (p q : Painter) : Prop :=
  q.verticesPending = p.verticesPending ∧ q.bytesPending = p.bytesPending ∧
  q.materialPending = p.materialPending ∧ q.vertexBuffer = p.vertexBuffer

/-- Line 62 of `Painter::drawQuads`: the `size_t` product `dataSize`. -/
def dataSize (E : Env) (m numVertices : Nat) : Nat :=
  (numVertices * (E.materials m).vertexStride) % SIZE_MOD

/-- Line 63 of `Painter::drawQuads`: the `size_t` sum `requiredSize`. -/
def requiredSize (E : Env) (m numVertices : Nat) (p : Painter) : Nat :=
  (dataSize E m numVertices + p.bytesPending) % SIZE_MOD

/-- Lines 64-66 of `Painter::drawQuads`: the buffer at the moment of the copy. -/
def bufferAtCopy (E : Env) (m numVertices : Nat) (p : Painter) : List Nat :=
  if p.vertexBuffer.length < requiredSize E m numVertices p then
    resize p.vertexBuffer ((requiredSize E m numVertices p * 2) % SIZE_MOD)
  else p.vertexBuffer

/-- The byte-wise copy the specification compares with: for `i = 0, ..., n - 1` in turn,
`dst[off + i] = src[i]`; an access out of range ends the run. -/
def byteCopy (dst : List Nat) (off : Nat) (src : List Nat) : Nat → Option (List Nat)
  | 0 => some dst
  | n + 1 =>
    match byteCopy dst off src n with
    | none => none
    | some d =>
      match src[n]? with
      | none => none
      | some x => if off + n < d.length then some (d.set (off + n) x) else none

/-! ## Operations and reachable states -/

/-- An outcome that returned or threw and left the painter in state `q`. -/
def Outcome.leaves (o : Outcome) (q : Painter) : Prop :=
  o = .ok q ∨ o = .thrown q

/-- The operations of a painter, with their arguments. -/
inductive Op where
  | startRender
  | drawQuads (material : Option Nat) (numVertices : Nat) (vertexData : Option (List Nat))
  | flush
  | endRender
  | bind (context : RenderContext)

/-- Running an operation. -/
def Op.run (E : Env) : Op → Painter → Outcome
  | .startRender, p => Halley.startRender E p
  | .drawQuads material numVertices vertexData, p =>
    Halley.drawQuads E material numVertices vertexData p
  | .flush, p => Halley.flush E p
  | .endRender, p => Halley.endRender E p
  | .bind context, p => Halley.bind E context p

/-- A valid operation: every operation but `drawQuads` is valid, and `drawQuads` is valid with
a material, a positive number of vertices that is a multiple of four, and vertex data that
hold all the bytes of the vertices; the data are an array in memory, so of fewer than
`2 ^ 64` bytes. -/
def Op.valid (E : Env) : Op → Prop
  | .drawQuads (some m) n (some d) =>
    0 < n ∧ n % 4 = 0 ∧ n * (E.materials m).vertexStride ≤ d.length ∧ d.length < SIZE_MOD
  | .drawQuads _ _ _ => False
  | _ => True

/-- The states reached from a state in `init` by operations in `allowed` that returned or
threw. -/
inductive Reachable (E : Env) (init : Painter → Prop) (allowed : Op → Prop) : Painter → Prop
  | start {p : Painter} : init p → Reachable E init allowed p
  | step {p q : Painter} (op : Op) : Reachable E init allowed p → allowed op →
      (op.run E p).leaves q → Reachable E init allowed q

/-- The state `q` is what some `startRender` left, whether `doStartRender` returned or
threw. -/
def afterStartRender (E : Env) (q : Painter) : Prop :=
  ∃ p, (startRender E p).leaves q

/-- A painter with no pending material and no pending vertex. -/
def fresh (p : Painter) : Prop :=
  p.materialPending = none ∧ p.verticesPending = 0

/-- The buffer of `q` is the buffer of `p`, and the batch of `q` is the batch of `p` or both
counters of `q` are 0. -/
def settled (p q : Painter) : Prop :=
  q.vertexBuffer = p.vertexBuffer ∧
  ((q.verticesPending = p.verticesPending ∧ q.bytesPending = p.bytesPending ∧
      q.materialPending = p.materialPending) ∨
    (q.verticesPending = 0 ∧ q.bytesPending = 0))

/-- The state `p1` is `p` after lines 55-60 of `drawQuads` with material `m`: `m` is pending
and the buffer is as before; the counters are as before, the material of `p` being `m` or
none, or they are 0 after a flush. -/
def selected (m : Nat) (p p1 : Painter) : Prop :=
  p1.materialPending = some m ∧ p1.vertexBuffer = p.vertexBuffer ∧
  ((p1.verticesPending = p.verticesPending ∧ p1.bytesPending = p.bytesPending ∧
      (p.materialPending = some m ∨ p.materialPending = none)) ∨
    (p1.verticesPending = 0 ∧ p1.bytesPending = 0))

/-- The pending-batch invariant in exact arithmetic: the vertex count is a multiple of four,
no material pending means nothing pending, the bytes pending are the vertices pending times
the stride of the pending material, and the buffer has fewer than `2 ^ 64` bytes. -/
def batchExact (E : Env) (p : Painter) : Prop :=
  p.verticesPending % 4 = 0 ∧
  (p.materialPending = none → p.verticesPending = 0 ∧ p.bytesPending = 0) ∧
  (∀ m, p.materialPending = some m →
    p.bytesPending = p.verticesPending * (E.materials m).vertexStride) ∧
  p.vertexBuffer.length < SIZE_MOD

/-- The pending-batch invariant in `size_t` arithmetic: as `batchExact`, the product being
reduced modulo `2 ^ 64`. -/
def batchModular (E : Env) (p : Painter) : Prop :=
  p.verticesPending % 4 = 0 ∧
  (p.materialPending = none → p.verticesPending = 0 ∧ p.bytesPending = 0) ∧
  (∀ m, p.materialPending = some m →
    p.bytesPending = (p.verticesPending * (E.materials m).vertexStride) % SIZE_MOD)

/-! ## Inputs of the examples -/

/-- Materials 1 and 2 are two objects with the same contents (stride 4, one pass); material 3
has stride 32 and one pass; every other material has stride 32 and two passes. -/
def demoMaterials (a : Nat) : Material :=
  if a = 1 ∨ a = 2 then ⟨4, 1⟩ else if a = 3 then ⟨32, 1⟩ else ⟨32, 2⟩

/-- An environment in which no outside call throws. -/
def demoEnv : Env :=
  { materials := demoMaterials, fails := fun _ _ => false, cameraProjection := fun _ _ _ => 7 }

/-- An environment in which the vertex upload throws. -/
def uploadFailsEnv : Env :=
  { materials := demoMaterials
    fails := fun _ c => match c with
      | .setVertices _ _ _ => true
      | _ => false
    cameraProjection := fun _ _ _ => 7 }

/-- Every material has stride 0 and one pass. -/
def zeroStrideEnv : Env :=
  { materials := fun _ => ⟨0, 1⟩, fails := fun _ _ => false, cameraProjection := fun _ _ _ => 7 }

/-- A painter that has done nothing yet. -/
def emptyPainter : Painter :=
  { verticesPending := 0, bytesPending := 0, materialPending := none,
    vertexBuffer := [], projection := 0, log := [] }

/-- The sixteen bytes of one quad with stride 4. -/
def quadBytes : List Nat :=
  [1, 2, 3, 4, 5, 6, 7, 8, 9, 10, 11, 12, 13, 14, 15, 16]

/-- A painter with one quad of material 1 pending. -/
def pendingPainter : Painter :=
  { verticesPending := 4, bytesPending := 16, materialPending := some 1,
    vertexBuffer := quadBytes, projection := 0, log := [] }

/-- A render context with viewport `(0, 0, 800, 600)` on a target of the same size. -/
def demoContext : RenderContext :=
  { renderTarget := 0, targetViewPort := ⟨0, 0, 800, 600⟩, viewPort := ⟨0, 0, 800, 600⟩,
    camera := 0 }

/-- Materials without passes: none at address 1, a negative count elsewhere. -/
def passlessEnv : Env :=
  { materials := fun a => if a = 1 then ⟨4, 0⟩ else ⟨4, -1⟩
    fails := fun _ _ => false
    cameraProjection := fun _ _ _ => 7 }

/-- Strides that are not word-aligned: material 1 has stride 5, every other material has
stride `2 ^ 62 + 1`. -/
def unalignedEnv : Env :=
  { materials := fun a => if a = 1 then ⟨5, 1⟩ else ⟨2 ^ 62 + 1, 1⟩
    fails := fun _ _ => false
    cameraProjection := fun _ _ _ => 7 }

/-- The painter after `startRender` on `emptyPainter`. -/
def startedPainter : Painter :=
  { emptyPainter with log := [Call.doStartRender] }

/-- The painter after `startRender` and one quad of material 1: the buffer has grown to 32
bytes. -/
def quadPendingPainter : Painter :=
  { verticesPending := 4, bytesPending := 16, materialPending := some 1,
    vertexBuffer := quadBytes ++ List.replicate 16 0, projection := 0,
    log := [Call.doStartRender] }

/-- The painter `pendingPainter` after one more quad of material 1: the buffer has grown to 64
bytes. -/
def twoQuadsPainter : Painter :=
  { verticesPending := 8, bytesPending := 32, materialPending := some 1,
    vertexBuffer := quadBytes ++ (quadBytes ++ List.replicate 32 0), projection := 0,
    log := [] }

/-! ## Lemmas -/

/-- A call that does not throw returns and is recorded. -/
theorem call_ok {E : Env} (hE : E.reliable) (c : Call) (p : Painter) :
    call E c p = .ok { p with log := p.log ++ [c] } := by
  simp [call, hE p.log c]

/-- Without a throwing call the pass loop records `passCalls`. -/
theorem passLoop_ok {E : Env} (hE : E.reliable) (m : Nat) (q : Int) (fuel : Nat) :
    ∀ (i : Int) (p : Painter),
      passLoop E m q fuel i p = .ok { p with log := p.log ++ passCalls m q fuel i } := by
  induction fuel with
  | zero => intro i p; simp [passLoop, passCalls]
  | succ k ih =>
    intro i p
    simp [passLoop, passCalls, call_ok hE, Outcome.bind, ih]

/-- Without a throwing call `executeDrawQuads` records `executionCalls` and changes nothing
else. -/
theorem executeDrawQuads_ok {E : Env} (hE : E.reliable) (m v : Nat) (d : List Nat)
    (p : Painter) :
    executeDrawQuads E m v d p =
      .ok { p with log := p.log ++ executionCalls E m v d p.projection } := by
  simp [executeDrawQuads, executionCalls, call_ok hE, Outcome.bind, passLoop_ok hE]

theorem executions_append (l₁ l₂ : List Call) :
    executions (l₁ ++ l₂) = executions l₁ ++ executions l₂ := by
  induction l₁ with
  | nil => simp [executions]
  | cons c l ih => cases c <;> simp [executions, ih]

theorem executions_passCalls (m : Nat) (q : Int) (fuel : Nat) :
    ∀ i, executions (passCalls m q fuel i) = [] := by
  induction fuel with
  | zero => intro i; simp [passCalls, executions]
  | succ k ih => intro i; simp [passCalls, executions, ih]

theorem executions_executionCalls (E : Env) (m v : Nat) (d : List Nat) (pr : Nat) :
    executions (executionCalls E m v d pr) = [(m, v, d)] := by
  simp [executionCalls, executions, executions_passCalls]

/-- Without a throwing call `flushPending` executes the pending batch and resets the
accumulator. -/
theorem flushPending_ok {E : Env} (hE : E.reliable) (p : Painter) (m : Nat)
    (hv : 0 < p.verticesPending) (hm : p.materialPending = some m) :
    flushPending E p =
      .ok { p with bytesPending := 0, verticesPending := 0, materialPending := none,
                   log := p.log ++ executionCalls E m p.verticesPending p.vertexBuffer
                     p.projection } := by
  simp [flushPending, hv, hm, executeDrawQuads_ok hE, Outcome.bind]

/-- With no vertex pending `flushPending` only resets the accumulator. -/
theorem flushPending_empty (E : Env) (p : Painter) (hv : p.verticesPending = 0) :
    flushPending E p =
      .ok { p with bytesPending := 0, verticesPending := 0, materialPending := none } := by
  simp [flushPending, hv, Outcome.bind]

theorem sameFields_refl (p : Painter) : sameFields p p := by
  simp [sameFields]

theorem sameFields_trans {p q r : Painter} (h₁ : sameFields p q) (h₂ : sameFields q r) :
    sameFields p r := by
  obtain ⟨a1, a2, a3, a4, a5⟩ := h₁
  obtain ⟨b1, b2, b3, b4, b5⟩ := h₂
  exact ⟨b1.trans a1, b2.trans a2, b3.trans a3, b4.trans a4, b5.trans a5⟩

theorem call_keeps (E : Env) (c : Call) (p : Painter) : (call E c p).keeps p := by
  unfold call
  split <;> simp [Outcome.keeps, sameFields]

theorem bind_keeps {p : Painter} {o : Outcome} {f : Painter → Outcome} (ho : o.keeps p)
    (hf : ∀ q, sameFields p q → (f q).keeps p) : (o.bind f).keeps p := by
  cases o with
  | ok q => exact hf q ho
  | thrown q => exact ho
  | fault => exact ho

theorem keeps_of_sameFields {p q : Painter} {o : Outcome} (h : sameFields p q)
    (ho : o.keeps q) : o.keeps p := by
  cases o with
  | ok r => exact sameFields_trans h ho
  | thrown r => exact sameFields_trans h ho
  | fault => exact ho

theorem passLoop_keeps (E : Env) (m : Nat) (nq : Int) (fuel : Nat) :
    ∀ (i : Int) (p : Painter), (passLoop E m nq fuel i p).keeps p := by
  induction fuel with
  | zero => intro i p; exact sameFields_refl p
  | succ k ih =>
    intro i p
    unfold passLoop
    refine bind_keeps (call_keeps E _ p) fun q hq => ?_
    refine bind_keeps (keeps_of_sameFields hq (call_keeps E _ q)) fun r hr => ?_
    exact keeps_of_sameFields hr (ih (i + 1) r)

/-- Whether it returns or throws, `executeDrawQuads` changes no field but the log, and it does
not fault. -/
theorem executeDrawQuads_keeps (E : Env) (m v : Nat) (d : List Nat) (p : Painter) :
    (executeDrawQuads E m v d p).keeps p := by
  unfold executeDrawQuads
  have h0 : sameFields p { p with log := p.log ++ [Call.executeDrawQuads m v d] } := by
    simp [sameFields]
  refine keeps_of_sameFields h0 ?_
  refine bind_keeps (call_keeps E _ _) fun q hq => ?_
  refine bind_keeps (keeps_of_sameFields hq (call_keeps E _ q)) fun r hr => ?_
  exact keeps_of_sameFields hr (passLoop_keeps E m _ _ 0 r)

theorem demoEnv_reliable : demoEnv.reliable := fun _ _ => rfl

/-- A sequence that returned: its first part returned. -/
theorem bind_eq_ok {o : Outcome} {f : Painter → Outcome} {q : Painter}
    (h : o.bind f = .ok q) : ∃ r, o = .ok r ∧ f r = .ok q := by
  cases o with
  | ok r => exact ⟨r, rfl, h⟩
  | thrown r => simp [Outcome.bind] at h
  | fault => simp [Outcome.bind] at h

theorem flushPending_ok_reset {E : Env} {p q : Painter} (h : flushPending E p = .ok q) :
    q.verticesPending = 0 ∧ q.bytesPending = 0 ∧ q.materialPending = none := by
  obtain ⟨r, -, hr⟩ := bind_eq_ok h
  simp at hr
  subst hr
  exact ⟨rfl, rfl, rfl⟩

theorem flushPending_of_reset (E : Env) (q : Painter) (hv : q.verticesPending = 0)
    (hb : q.bytesPending = 0) (hm : q.materialPending = none) :
    flushPending E q = .ok q := by
  rw [flushPending_empty E q hv]
  cases q
  simp_all

theorem passCalls_eq_range (m : Nat) (nq : Int) (n : Nat) :
    ∀ i : Int, passCalls m nq n i =
      (List.range n).flatMap fun k => [Call.materialBind m (i + (k : Int)), Call.drawQuads nq] := by
  induction n with
  | zero => intro i; simp [passCalls]
  | succ k ih =>
    intro i
    rw [List.range_succ_eq_map]
    simp [passCalls, ih, List.flatMap_map, Function.comp_def, add_assoc, add_comm (1 : Int)]

theorem toInt_of_lt (x : Nat) (h : x < 2 ^ 31) : toInt x = (x : Int) := by
  have h1 : x % 2 ^ 32 = x := Nat.mod_eq_of_lt (by omega)
  unfold toInt
  rw [h1, if_pos h]

theorem copyWord_eq {w : Nat} {dst src : List Nat} {d s : Nat} (hs : s + w ≤ src.length)
    (hd : d + w ≤ dst.length) :
    copyWord w dst d src s = some (dst.take d ++ ((src.drop s).take w ++ dst.drop (d + w))) := by
  simp [copyWord, hs, hd]

/-- Within bounds the word loop copies `n * w` bytes and leaves the other bytes of `dst` alone.
-/
theorem doMemcpyAlignLoop_eq (w : Nat) (src : List Nat) (n : Nat) :
    ∀ (s d : Nat) (dst : List Nat), s + n * w ≤ src.length → d + n * w ≤ dst.length →
      doMemcpyAlignLoop w src n s d dst =
        some (dst.take d ++ ((src.drop s).take (n * w) ++ dst.drop (d + n * w))) := by
  induction n with
  | zero =>
    intro s d dst _ _
    simp [doMemcpyAlignLoop]
  | succ k ih =>
    intro s d dst hs hd
    have hmul : (k + 1) * w = w + k * w := by ring
    rw [hmul] at hs hd
    have hs1 : s + w ≤ src.length := by omega
    have hd1 : d + w ≤ dst.length := by omega
    have hlen : (dst.take d ++ ((src.drop s).take w ++ dst.drop (d + w))).length = dst.length := by
      simp only [List.length_append, List.length_take, List.length_drop]
      omega
    have hAW : (dst.take d ++ (src.drop s).take w).length = d + w := by
      simp only [List.length_append, List.length_take, List.length_drop]
      omega
    simp only [doMemcpyAlignLoop, copyWord_eq hs1 hd1]
    rw [ih (s + w) (d + w) _ (by omega) (by rw [hlen]; omega)]
    congr 1
    rw [hmul]
    have e1 : (dst.take d ++ ((src.drop s).take w ++ dst.drop (d + w))).take (d + w) =
        dst.take d ++ (src.drop s).take w := by
      rw [← List.append_assoc, List.take_left' hAW]
    have e2 : (dst.take d ++ ((src.drop s).take w ++ dst.drop (d + w))).drop (d + w + k * w) =
        dst.drop (d + (w + k * w)) := by
      rw [← List.append_assoc, ← List.drop_drop, List.drop_left' hAW, List.drop_drop]
      congr 1
      omega
    have e3 : (src.drop s).take (w + k * w) =
        (src.drop s).take w ++ (src.drop (s + w)).take (k * w) := by
      rw [List.take_add, List.drop_drop]
    rw [e1, e2, e3]
    simp [List.append_assoc]

/-- For a multiple of four within bounds, `memcpyAlign` copies exactly `bytes` bytes. -/
theorem memcpyAlign_eq {dst src : List Nat} {off bytes : Nat} (h4 : bytes % 4 = 0)
    (hs : bytes ≤ src.length) (hd : off + bytes ≤ dst.length) :
    memcpyAlign dst off src bytes =
      some (dst.take off ++ (src.take bytes ++ dst.drop (off + bytes))) := by
  unfold memcpyAlign doMemcpyAlign
  split
  · next h8 =>
    have hb : bytes / 8 * 8 = bytes := by omega
    rw [doMemcpyAlignLoop_eq 8 src (bytes / 8) 0 off dst (by omega) (by omega), hb]
    simp
  · have hb : bytes / 4 * 4 = bytes := by omega
    rw [doMemcpyAlignLoop_eq 4 src (bytes / 4) 0 off dst (by omega) (by omega), hb]
    simp

theorem length_resize (buf : List Nat) (n : Nat) : (resize buf n).length = n := by
  simp only [resize, List.length_append, List.length_take, List.length_replicate]
  omega

/-- The state after `appendVertices` when no `size_t` expression wraps around. -/
theorem appendVertices_ok (E : Env) (m n : Nat) (data : List Nat) (p : Painter)
    (h4 : n % 4 = 0)
    (hdata : n * (E.materials m).vertexStride ≤ data.length)
    (hfit : n * (E.materials m).vertexStride + p.bytesPending < SIZE_MOD)
    (hgrow : p.vertexBuffer.length < n * (E.materials m).vertexStride + p.bytesPending →
      (n * (E.materials m).vertexStride + p.bytesPending) * 2 < SIZE_MOD) :
    appendVertices E (some m) n data p =
      .ok { p with
            vertexBuffer :=
              (grownBuffer p.vertexBuffer
                  (n * (E.materials m).vertexStride + p.bytesPending)).take p.bytesPending ++
                (data.take (n * (E.materials m).vertexStride) ++
                  (grownBuffer p.vertexBuffer
                    (n * (E.materials m).vertexStride + p.bytesPending)).drop
                    (p.bytesPending + n * (E.materials m).vertexStride))
            verticesPending := (p.verticesPending + n) % SIZE_MOD
            bytesPending := p.bytesPending + n * (E.materials m).vertexStride } := by
  set d := n * (E.materials m).vertexStride with hd
  have hd4 : d % 4 = 0 := by
    rw [hd, Nat.mul_mod, h4]; simp
  have e1 : d % SIZE_MOD = d := Nat.mod_eq_of_lt (by omega)
  have e2 : (d + p.bytesPending) % SIZE_MOD = d + p.bytesPending := Nat.mod_eq_of_lt hfit
  have e3 : (p.bytesPending + d) % SIZE_MOD = p.bytesPending + d := by
    rw [Nat.add_comm]; exact e2
  have hbuf : (if p.vertexBuffer.length < d + p.bytesPending then
        resize p.vertexBuffer ((d + p.bytesPending) * 2 % SIZE_MOD)
      else p.vertexBuffer) = grownBuffer p.vertexBuffer (d + p.bytesPending) := by
    unfold grownBuffer
    split
    · next hlt => rw [Nat.mod_eq_of_lt (hgrow hlt)]
    · rfl
  have hlen : p.bytesPending + d ≤ (grownBuffer p.vertexBuffer (d + p.bytesPending)).length := by
    unfold grownBuffer
    split
    · rw [length_resize]; omega
    · omega
  simp only [appendVertices, ← hd, e1, e2, e3, hbuf, memcpyAlign_eq hd4 hdata hlen]

theorem selectMaterial_same (E : Env) (m : Nat) (p : Painter)
    (hm : p.materialPending = some m) : selectMaterial E (some m) p = .ok p := by
  simp [selectMaterial, hm]

theorem selectMaterial_empty (E : Env) (m : Nat) (p : Painter)
    (hv : p.verticesPending = 0) (hb : p.bytesPending = 0) :
    selectMaterial E (some m) p = .ok { p with materialPending := some m } := by
  by_cases hm : some m = p.materialPending
  · rw [selectMaterial_same E m p hm.symm]
    cases p
    simp_all
  · cases hp : p.materialPending with
    | none => simp [selectMaterial, hp, Outcome.bind]
    | some a =>
      have : ¬ m = a := by
        intro h; apply hm; rw [hp, h]
      simp [selectMaterial, hp, this, flushPending_empty E p hv, Outcome.bind, hv, hb]

theorem selectMaterial_other {E : Env} (hE : E.reliable) (m a : Nat) (p : Painter)
    (hp : p.materialPending = some a) (hne : m ≠ a) (hv : 0 < p.verticesPending) :
    selectMaterial E (some m) p =
      .ok { p with bytesPending := 0, verticesPending := 0, materialPending := some m,
                   log := p.log ++ executionCalls E a p.verticesPending p.vertexBuffer
                     p.projection } := by
  simp [selectMaterial, hp, hne, flushPending_ok hE p a hv hp, Outcome.bind]

theorem submit_eq (E : Env) (s : Submission) (p : Painter) (hs : s.valid E) :
    submit E s p =
      (selectMaterial E (some s.material) p).bind
        (appendVertices E (some s.material) s.numVertices s.vertexData) := by
  obtain ⟨h0, h4, -⟩ := hs
  simp [submit, drawQuads, h0, h4]

theorem length_grownBuffer_ge (buf : List Nat) (r : Nat) :
    buf.length ≤ (grownBuffer buf r).length ∧ r ≤ (grownBuffer buf r).length := by
  unfold grownBuffer
  split
  · rw [length_resize]; omega
  · omega

theorem grownBuffer_take (buf : List Nat) (r b : Nat) (hb : b ≤ buf.length) :
    (grownBuffer buf r).take b = buf.take b := by
  unfold grownBuffer
  split
  · next hlt =>
    unfold resize
    have h1 : buf.take (r * 2) = buf := List.take_of_length_le (by omega)
    rw [h1, List.take_append_of_le_length hb]
  · rfl

/-- One `appendVertices` in terms of the counters and the pending bytes. -/
theorem append_step (E : Env) (m n : Nat) (data : List Nat) (p : Painter)
    (h4 : n % 4 = 0)
    (hdata : n * (E.materials m).vertexStride ≤ data.length)
    (hv : p.verticesPending + n < SIZE_MOD)
    (hb : 2 * (p.bytesPending + n * (E.materials m).vertexStride) < SIZE_MOD)
    (hlen : p.bytesPending ≤ p.vertexBuffer.length) :
    ∃ q, appendVertices E (some m) n data p = .ok q ∧ q.log = p.log ∧
      q.materialPending = p.materialPending ∧ q.projection = p.projection ∧
      q.verticesPending = p.verticesPending + n ∧
      q.bytesPending = p.bytesPending + n * (E.materials m).vertexStride ∧
      q.vertexBuffer.take (p.bytesPending + n * (E.materials m).vertexStride) =
        p.vertexBuffer.take p.bytesPending ++ data.take (n * (E.materials m).vertexStride) ∧
      p.bytesPending + n * (E.materials m).vertexStride ≤ q.vertexBuffer.length ∧
      p.vertexBuffer.length ≤ q.vertexBuffer.length := by
  set d := n * (E.materials m).vertexStride with hd
  have hG := length_grownBuffer_ge p.vertexBuffer (d + p.bytesPending)
  have hlenA : ((grownBuffer p.vertexBuffer (d + p.bytesPending)).take p.bytesPending).length =
      p.bytesPending := by
    rw [List.length_take]; omega
  have hlenD : (data.take d).length = d := by
    rw [List.length_take]; omega
  refine ⟨_, appendVertices_ok E m n data p h4 hdata (by omega) (fun _ => by omega),
    rfl, rfl, rfl, ?_, rfl, ?_, ?_, ?_⟩
  · exact Nat.mod_eq_of_lt hv
  · show List.take _ (_ ++ (_ ++ _)) = _
    rw [← List.append_assoc, List.take_left' (by rw [List.length_append, hlenA, hlenD]),
      grownBuffer_take _ _ _ hlen]
  · show _ ≤ List.length (_ ++ (_ ++ _))
    simp only [← hd, List.length_append, hlenA, hlenD, List.length_drop]
    omega
  · show _ ≤ List.length (_ ++ (_ ++ _))
    simp only [← hd, List.length_append, hlenA, hlenD, List.length_drop]
    omega

theorem executedBatches_append (E : Env) (l₁ l₂ : List Call) :
    executedBatches E (l₁ ++ l₂) = executedBatches E l₁ ++ executedBatches E l₂ := by
  simp [executedBatches, executions_append]

theorem executedBatches_executionCalls (E : Env) (m v : Nat) (d : List Nat) (pr : Nat) :
    executedBatches E (executionCalls E m v d pr) =
      [{ material := m, numVertices := v,
         vertexBytes := d.take (v * (E.materials m).vertexStride) }] := by
  simp [executedBatches, executions_executionCalls]

/-- Copying a submission into an empty accumulator makes it the pending batch. -/
theorem pending_start (E : Env) (a : Submission) (p : Painter) (ha : a.valid E)
    (hm : p.materialPending = some a.material)
    (hv : p.verticesPending = 0) (hb : p.bytesPending = 0)
    (hn : a.numVertices < SIZE_MOD) (hd : 2 * a.dataSize E < SIZE_MOD) :
    ∃ q, appendVertices E (some a.material) a.numVertices a.vertexData p = .ok q ∧
      Pending E q [a] a.material ∧ q.log = p.log ∧ q.projection = p.projection ∧
      q.verticesPending = a.numVertices ∧ q.bytesPending = a.dataSize E := by
  obtain ⟨h0, h4, hdata⟩ := ha
  unfold Submission.dataSize at hdata hd
  obtain ⟨q, hq, hlog, hmat, hproj, hqv, hqb, htake, hlen, -⟩ :=
    append_step E a.material a.numVertices a.vertexData p h4 hdata (by omega) (by omega)
      (by omega)
  rw [hv, Nat.zero_add] at hqv
  rw [hb, Nat.zero_add] at hqb htake hlen
  refine ⟨q, hq, ⟨by rw [hmat, hm], ?_, by rw [hqb, hqv], by omega, by omega, by simp⟩,
    hlog, hproj, hqv, hqb⟩
  simp [batchOfRun, totalVertices, Submission.bytes, Submission.dataSize, hqv, hqb, htake]

/-- A submission with the pending material extends the pending batch. -/
theorem pending_extend (E : Env) (a : Submission) (p : Painter) (run : List Submission)
    (ha : a.valid E) (hp : Pending E p run a.material)
    (hn : p.verticesPending + a.numVertices < SIZE_MOD)
    (hd : 2 * (p.bytesPending + a.dataSize E) < SIZE_MOD) :
    ∃ q, submit E a p = .ok q ∧ Pending E q (run ++ [a]) a.material ∧ q.log = p.log ∧
      q.projection = p.projection ∧
      q.verticesPending = p.verticesPending + a.numVertices ∧
      q.bytesPending = p.bytesPending + a.dataSize E := by
  obtain ⟨hm, hrun, hbytes, hpos, hlen, hne⟩ := hp
  have ha' := ha
  obtain ⟨h0, h4, hdata⟩ := ha
  unfold Submission.dataSize at hdata hd
  obtain ⟨q, hq, hlog, hmat, hproj, hqv, hqb, htake, hqlen, -⟩ :=
    append_step E a.material a.numVertices a.vertexData p h4 hdata hn hd hlen
  refine ⟨q, ?_, ⟨by rw [hmat, hm], ?_, ?_, by omega, by omega, by simp⟩, hlog, hproj, hqv, hqb⟩
  · rw [submit_eq E a p ha', selectMaterial_same E _ p hm]
    exact hq
  · obtain ⟨b, rest, rfl⟩ := List.exists_cons_of_ne_nil hne
    simp only [batchOfRun, Batch.mk.injEq] at hrun
    obtain ⟨h1, h2, h3⟩ := hrun
    simp only [batchOfRun, Batch.mk.injEq]
    refine ⟨by simpa using h1, ?_, ?_⟩
    · rw [hqv, ← h2]
      simp [totalVertices, Nat.add_assoc]
    · rw [hqb, htake, ← h3]
      simp [Submission.bytes, Submission.dataSize]
  · rw [hqb, hqv, hbytes]
    ring

/-- The first submission after an empty accumulator becomes the pending batch. -/
theorem pending_first (E : Env) (a : Submission) (p : Painter) (ha : a.valid E)
    (hv : p.verticesPending = 0) (hb : p.bytesPending = 0)
    (hn : a.numVertices < SIZE_MOD) (hd : 2 * a.dataSize E < SIZE_MOD) :
    ∃ q, submit E a p = .ok q ∧ Pending E q [a] a.material ∧ q.log = p.log ∧
      q.projection = p.projection ∧
      q.verticesPending = a.numVertices ∧ q.bytesPending = a.dataSize E := by
  rw [submit_eq E a p ha, selectMaterial_empty E _ p hv hb]
  exact pending_start E a _ ha rfl hv hb hn hd

/-- A submission with another material executes the pending batch and becomes the pending batch.
-/
theorem pending_switch {E : Env} (hE : E.reliable) (a : Submission) (p : Painter)
    (run : List Submission) (m : Nat) (ha : a.valid E) (hp : Pending E p run m)
    (hne : a.material ≠ m)
    (hn : a.numVertices < SIZE_MOD) (hd : 2 * a.dataSize E < SIZE_MOD) :
    ∃ q, submit E a p = .ok q ∧ Pending E q [a] a.material ∧
      executedBatches E q.log = executedBatches E p.log ++ [batchOfRun E run] ∧
      q.projection = p.projection ∧
      q.verticesPending = a.numVertices ∧ q.bytesPending = a.dataSize E := by
  obtain ⟨hm, hrun, hbytes, hpos, hlen, hne'⟩ := hp
  rw [submit_eq E a p ha, selectMaterial_other hE _ m p hm hne hpos]
  obtain ⟨q, hq, hpq, hlog, hproj, hqv, hqb⟩ :=
    pending_start E a
      { p with bytesPending := 0, verticesPending := 0, materialPending := some a.material,
               log := p.log ++ executionCalls E m p.verticesPending p.vertexBuffer
                 p.projection } ha rfl rfl rfl hn hd
  refine ⟨q, hq, hpq, ?_, hproj, hqv, hqb⟩
  rw [hlog, executedBatches_append, executedBatches_executionCalls, hrun, hbytes]

/-- The final `endRender` executes the pending batch. -/
theorem pending_finish {E : Env} (hE : E.reliable) (p : Painter) (run : List Submission)
    (m : Nat) (hp : Pending E p run m) :
    ∃ q, endRender E p = .ok q ∧
      executedBatches E q.log = executedBatches E p.log ++ [batchOfRun E run] ∧
      q.verticesPending = 0 ∧ q.bytesPending = 0 ∧ q.materialPending = none := by
  obtain ⟨hm, hrun, hbytes, hpos, hlen, hne'⟩ := hp
  have h : endRender E p =
      .ok { p with bytesPending := 0, verticesPending := 0, materialPending := none,
                   log := p.log ++ executionCalls E m p.verticesPending p.vertexBuffer
                     p.projection ++ [Call.doEndRender] } := by
    simp only [endRender, flush, flushPending_ok hE p m hpos hm, Outcome.bind, call_ok hE]
  refine ⟨_, h, ?_, rfl, rfl, rfl⟩
  have hend : executedBatches E [Call.doEndRender] = [] := rfl
  show executedBatches E (_ ++ _ ++ _) = _
  rw [executedBatches_append, executedBatches_append, executedBatches_executionCalls, hend,
    hrun, hbytes, List.append_nil]

/-- Simulation of `List.splitBy.loop` by the painter: the pending batch is the group being
collected, and the executions so far are the finished groups. -/
theorem submitAll_runs {E : Env} (hE : E.reliable) (rest : List Submission) :
    ∀ (ag : Submission) (g : List Submission) (gs : List (List Submission)) (p : Painter)
      (pre : List Batch),
      (∀ s ∈ rest, s.valid E) →
      Pending E p (ag :: g).reverse ag.material →
      p.verticesPending + totalVertices rest < SIZE_MOD →
      2 * (p.bytesPending + totalBytes E rest) < SIZE_MOD →
      executedBatches E p.log = pre ++ gs.reverse.map (batchOfRun E) →
      ∃ q, (submitAll E rest p).bind (endRender E) = .ok q ∧
        executedBatches E q.log =
          pre ++ (List.splitBy.loop sameMaterial rest ag g gs).map (batchOfRun E) ∧
        q.verticesPending = 0 ∧ q.bytesPending = 0 ∧ q.materialPending = none := by
  induction rest with
  | nil =>
    intro ag g gs p pre _ hp _ _ hlog
    obtain ⟨q, hq, hql, h1, h2, h3⟩ := pending_finish hE p _ _ hp
    refine ⟨q, by simpa [submitAll, Outcome.bind] using hq, ?_, h1, h2, h3⟩
    rw [hql, hlog]
    simp [List.splitBy.loop]
  | cons a rest ih =>
    intro ag g gs p pre hvalid hp hv hb hlog
    have ha : a.valid E := hvalid a (by simp)
    have hrest : ∀ s ∈ rest, s.valid E := fun s hs => hvalid s (by simp [hs])
    simp only [totalVertices, totalBytes, List.map_cons, List.sum_cons] at hv hb
    by_cases hm : ag.material = a.material
    · rw [hm] at hp
      obtain ⟨q, hq, hpq, hql, -, hqv, hqb⟩ := pending_extend E a p _ ha hp (by omega) (by omega)
      have hrev : (ag :: g).reverse ++ [a] = (a :: ag :: g).reverse := by simp
      rw [hrev] at hpq
      obtain ⟨r, hr, hrl, h1, h2, h3⟩ := ih a (ag :: g) gs q pre hrest hpq
        (by simp only [totalVertices]; omega) (by simp only [totalBytes]; omega)
        (by rw [hql]; exact hlog)
      refine ⟨r, by simpa [submitAll, hq, Outcome.bind] using hr, ?_, h1, h2, h3⟩
      rw [hrl, List.splitBy.loop]
      simp [sameMaterial, hm]
    · obtain ⟨q, hq, hpq, hql, -, hqv, hqb⟩ :=
        pending_switch hE a p _ _ ha hp (fun h => hm h.symm) (by omega) (by omega)
      have hone : [a] = (a :: ([] : List Submission)).reverse := by simp
      rw [hone] at hpq
      obtain ⟨r, hr, hrl, h1, h2, h3⟩ := ih a [] ((ag :: g).reverse :: gs) q pre hrest hpq
        (by simp only [totalVertices]; omega) (by simp only [totalBytes]; omega)
        (by rw [hql, hlog]; simp)
      refine ⟨r, by simpa [submitAll, hq, Outcome.bind] using hr, ?_, h1, h2, h3⟩
      have hbeq : sameMaterial ag a = false := by simpa [sameMaterial] using hm
      rw [hrl, List.splitBy.loop, hbeq]

theorem startRender_ok {E : Env} (hE : E.reliable) (p : Painter) :
    startRender E p =
      .ok { p with verticesPending := 0, bytesPending := 0,
                   log := p.log ++ [Call.doStartRender] } := by
  simp [startRender, call_ok hE]

theorem endRender_empty {E : Env} (hE : E.reliable) (p : Painter)
    (hv : p.verticesPending = 0) :
    endRender E p =
      .ok { p with bytesPending := 0, verticesPending := 0, materialPending := none,
                   log := p.log ++ [Call.doEndRender] } := by
  simp only [endRender, flush, flushPending_empty E p hv, Outcome.bind, call_ok hE]

/-- Submissions with the pending material only extend the pending batch. -/
theorem submitAll_same (E : Env) (m : Nat) (rest : List Submission) :
    ∀ (p : Painter) (run : List Submission),
      (∀ s ∈ rest, s.valid E) → (∀ s ∈ rest, s.material = m) → Pending E p run m →
      p.verticesPending + totalVertices rest < SIZE_MOD →
      2 * (p.bytesPending + totalBytes E rest) < SIZE_MOD →
      ∃ q, submitAll E rest p = .ok q ∧ Pending E q (run ++ rest) m ∧ q.log = p.log ∧
        q.projection = p.projection ∧
        q.verticesPending = p.verticesPending + totalVertices rest ∧
        q.bytesPending = p.bytesPending + totalBytes E rest := by
  induction rest with
  | nil =>
    intro p run _ _ hp _ _
    exact ⟨p, rfl, by simpa using hp, rfl, rfl, by simp [totalVertices], by simp [totalBytes]⟩
  | cons a rest ih =>
    intro p run hvalid hsame hp hv hb
    have ha : a.valid E := hvalid a (by simp)
    have hma : a.material = m := hsame a (by simp)
    simp only [totalVertices, totalBytes, List.map_cons, List.sum_cons] at hv hb
    rw [← hma] at hp
    obtain ⟨q, hq, hpq, hql, hqp, hqv, hqb⟩ := pending_extend E a p run ha hp (by omega) (by omega)
    rw [hma] at hpq
    obtain ⟨r, hr, hpr, hrl, hrp, hrv, hrb⟩ := ih q (run ++ [a])
      (fun s hs => hvalid s (by simp [hs])) (fun s hs => hsame s (by simp [hs])) hpq
      (by simp only [totalVertices]; omega) (by simp only [totalBytes]; omega)
    refine ⟨r, by simpa [submitAll, hq, Outcome.bind] using hr, by simpa using hpr,
      hrl.trans hql, hrp.trans hqp, ?_, ?_⟩
    · simp only [totalVertices, List.map_cons, List.sum_cons] at hrv ⊢
      omega
    · simp only [totalBytes, List.map_cons, List.sum_cons] at hrb ⊢
      omega

theorem ok_bind (p : Painter) (f : Painter → Outcome) : (Outcome.ok p).bind f = f p := rfl

theorem grownBuffer_getElem? (buf : List Nat) (r i : Nat) (x : Nat)
    (h : buf[i]? = some x) : (grownBuffer buf r)[i]? = some x := by
  obtain ⟨hi, -⟩ := List.getElem?_eq_some_iff.mp h
  have h1 := grownBuffer_take buf r (i + 1) (by omega)
  rw [← List.getElem?_take_of_succ, h1, List.getElem?_take_of_succ]
  exact h

theorem bind_ok {E : Env} (hE : E.reliable) (context : RenderContext) (p : Painter) :
    bind E context p =
      .ok { p with
            projection := E.cameraProjection context.camera context.viewPort.w
              context.viewPort.h
            log := p.log ++
              [Call.renderTargetBind context.renderTarget,
               Call.setViewPort context.viewPort
                 (decide (context.viewPort ≠ context.targetViewPort)),
               Call.cameraSetViewArea context.viewPort.w context.viewPort.h,
               Call.cameraUpdateProjection] } := by
  simp [bind, call_ok hE, Outcome.bind]

/-- The runs that `expectedBatches` uses are the maximal runs of consecutive submissions with
the same material: put one after the other they are the submissions; every run is non-empty
and of one material; and a run ends with another material than the next run starts with. -/
theorem splitBy_sameMaterial_runs (subs : List Submission) :
    (subs.splitBy sameMaterial).flatten = subs ∧
    (∀ run ∈ subs.splitBy sameMaterial,
      run ≠ [] ∧ run.Chain' fun a b => a.material = b.material) ∧
    (subs.splitBy sameMaterial).Chain' fun r₁ r₂ =>
      ∃ h₁ h₂, (r₁.getLast h₁).material ≠ (r₂.head h₂).material := by
  refine ⟨List.flatten_splitBy _ _, fun run hrun => ⟨List.ne_nil_of_mem_splitBy _ hrun, ?_⟩, ?_⟩
  · refine (List.chain'_of_mem_splitBy hrun).imp ?_
    intro a b hab
    simpa [sameMaterial] using hab
  · refine (List.chain'_getLast_head_splitBy sameMaterial subs).imp ?_
    rintro r₁ r₂ ⟨h₁, h₂, h⟩
    exact ⟨h₁, h₂, by simpa [sameMaterial] using h⟩

/-- The outcome of `appendVertices` in terms of `dataSize` and `bufferAtCopy`. -/
theorem appendVertices_eq (E : Env) (m n : Nat) (data : List Nat) (p : Painter) :
    appendVertices E (some m) n data p =
      match memcpyAlign (bufferAtCopy E m n p) p.bytesPending data (dataSize E m n) with
      | none => .fault
      | some buf1 =>
        .ok { p with
              vertexBuffer := buf1
              verticesPending := (p.verticesPending + n) % SIZE_MOD
              bytesPending := (p.bytesPending + dataSize E m n) % SIZE_MOD } := rfl

/-- A call returns or throws, and changes nothing but the log. -/
theorem call_cases (E : Env) (c : Call) (p : Painter) :
    call E c p = .ok { p with log := p.log ++ [c] } ∨
    call E c p = .thrown { p with log := p.log ++ [c] } := by
  unfold call
  split
  · exact Or.inr rfl
  · exact Or.inl rfl

/-- The state a call leaves behind, whether it returned or threw. -/
theorem call_result {E : Env} {c : Call} {p q : Painter}
    (h : call E c p = .ok q ∨ call E c p = .thrown q) : q = { p with log := p.log ++ [c] } := by
  rcases call_cases E c p with hc | hc <;> rw [hc] at h <;> rcases h with h | h <;>
    first
    | exact (Outcome.ok.inj h).symm
    | exact (Outcome.thrown.inj h).symm
    | exact absurd h (by simp)

/-- A sequence that returned or threw: its first part threw, or it returned and the rest
returned or threw. -/
theorem bind_cases {o : Outcome} {f : Painter → Outcome} {r : Painter}
    (h : o.bind f = .ok r ∨ o.bind f = .thrown r) :
    o = .thrown r ∨ ∃ q, o = .ok q ∧ (f q = .ok r ∨ f q = .thrown r) := by
  cases o with
  | ok q => exact Or.inr ⟨q, rfl, h⟩
  | thrown q =>
    rcases h with h | h
    · simp [Outcome.bind] at h
    · simp only [Outcome.bind, Outcome.thrown.injEq] at h
      exact Or.inl (by rw [h])
  | fault => simp [Outcome.bind] at h

/-- Every state keeps its own accumulator. -/
theorem accumulatorKept_refl (p : Painter) : accumulatorKept p p := ⟨rfl, rfl, rfl, rfl⟩

/-- Keeping the accumulator is transitive. -/
theorem accumulatorKept_trans {p q r : Painter} (h₁ : accumulatorKept p q)
    (h₂ : accumulatorKept q r) : accumulatorKept p r :=
  ⟨h₂.1.trans h₁.1, h₂.2.1.trans h₁.2.1, h₂.2.2.1.trans h₁.2.2.1, h₂.2.2.2.trans h₁.2.2.2⟩

/-- A call keeps the accumulator, whether it returns or throws. -/
theorem call_accumulatorKept {E : Env} {c : Call} {p q : Painter}
    (h : call E c p = .ok q ∨ call E c p = .thrown q) : accumulatorKept p q := by
  rw [call_result h]
  exact ⟨rfl, rfl, rfl, rfl⟩

/-- Whether `bind` returns or throws, it keeps the accumulator. -/
theorem bind_accumulatorKept {E : Env} {context : RenderContext} {p q : Painter}
    (hq : bind E context p = .ok q ∨ bind E context p = .thrown q) : accumulatorKept p q := by
  unfold bind at hq
  rcases bind_cases hq with h1 | ⟨q1, h1, hq⟩
  · exact call_accumulatorKept (Or.inr h1)
  have k1 := call_accumulatorKept (Or.inl h1)
  rcases bind_cases hq with h2 | ⟨q2, h2, hq⟩
  · exact accumulatorKept_trans k1 (call_accumulatorKept (Or.inr h2))
  have k2 := accumulatorKept_trans k1 (call_accumulatorKept (Or.inl h2))
  rcases bind_cases hq with h3 | ⟨q3, h3, hq⟩
  · exact accumulatorKept_trans k2 (call_accumulatorKept (Or.inr h3))
  have k3 := accumulatorKept_trans k2 (call_accumulatorKept (Or.inl h3))
  rcases bind_cases hq with h4 | ⟨q4, h4, hq⟩
  · exact accumulatorKept_trans k3 (call_accumulatorKept (Or.inr h4))
  have k4 := accumulatorKept_trans k3 (call_accumulatorKept (Or.inl h4))
  rcases hq with hq | hq
  · simp only [Outcome.ok.injEq] at hq
    subst hq
    exact k4
  · simp at hq

/-- No call of `passlessEnv` throws. -/
theorem passlessEnv_reliable : passlessEnv.reliable := fun _ _ => rfl

/-- A word copy leaves the length of the buffer as it is. -/
theorem copyWord_length {w d s : Nat} {dst src r : List Nat}
    (h : copyWord w dst d src s = some r) : r.length = dst.length := by
  unfold copyWord at h
  split at h
  · next hb =>
    simp only [Option.some.injEq] at h
    subst h
    simp only [List.length_append, List.length_take, List.length_drop]
    omega
  · simp at h

/-- The word loop leaves the length of the buffer as it is. -/
theorem doMemcpyAlignLoop_length (w : Nat) (src : List Nat) (n : Nat) :
    ∀ (s d : Nat) (dst r : List Nat), doMemcpyAlignLoop w src n s d dst = some r →
      r.length = dst.length := by
  induction n with
  | zero =>
    intro s d dst r h
    simp only [doMemcpyAlignLoop, Option.some.injEq] at h
    rw [h]
  | succ k ih =>
    intro s d dst r h
    simp only [doMemcpyAlignLoop] at h
    cases hc : copyWord w dst d src s with
    | none => rw [hc] at h; simp at h
    | some dst1 =>
      rw [hc] at h
      rw [ih _ _ _ _ h, copyWord_length hc]

/-- The copy leaves the length of the buffer as it is. -/
theorem memcpyAlign_length {dst src r : List Nat} {off bytes : Nat}
    (h : memcpyAlign dst off src bytes = some r) : r.length = dst.length := by
  unfold memcpyAlign doMemcpyAlign at h
  split at h <;> exact doMemcpyAlignLoop_length _ _ _ _ _ _ _ h

/-- A word loop that reaches past the end of `src` or of `dst` faults. -/
theorem doMemcpyAlignLoop_none (w : Nat) (src : List Nat) (n : Nat) :
    ∀ (s d : Nat) (dst : List Nat), 0 < n →
      ¬ (s + n * w ≤ src.length ∧ d + n * w ≤ dst.length) →
      doMemcpyAlignLoop w src n s d dst = none := by
  induction n with
  | zero => intro s d dst h0; omega
  | succ k ih =>
    intro s d dst _ h
    have hmul : (k + 1) * w = w + k * w := by ring
    rw [hmul] at h
    simp only [doMemcpyAlignLoop]
    cases hc : copyWord w dst d src s with
    | none => rfl
    | some dst1 =>
      have hlen := copyWord_length hc
      have hin : s + w ≤ src.length ∧ d + w ≤ dst.length := by
        unfold copyWord at hc
        split at hc
        · next hb => exact hb
        · simp at hc
      show doMemcpyAlignLoop w src k (s + w) (d + w) dst1 = none
      have hk : 0 < k := by
        rcases Nat.eq_zero_or_pos k with h0 | h0
        · subst h0
          exfalso
          apply h
          simpa using hin
        · exact h0
      apply ih _ _ _ hk
      rw [hlen]
      omega

/-- The byte-wise copy leaves the length of the buffer as it is. -/
theorem byteCopy_length (dst : List Nat) (off : Nat) (src : List Nat) (n : Nat) :
    ∀ r, byteCopy dst off src n = some r → r.length = dst.length := by
  induction n with
  | zero =>
    intro r h
    simp only [byteCopy, Option.some.injEq] at h
    rw [h]
  | succ k ih =>
    intro r h
    simp only [byteCopy] at h
    cases hb : byteCopy dst off src k with
    | none => rw [hb] at h; simp at h
    | some d =>
      rw [hb] at h
      cases hx : src[k]? with
      | none => rw [hx] at h; simp at h
      | some x =>
        rw [hx] at h
        simp only at h
        split at h
        · simp only [Option.some.injEq] at h
          rw [← h, List.length_set, ih d hb]
        · simp at h

/-- Within bounds the byte-wise copy writes the first `n` bytes of `src` at offset `off`. -/
theorem byteCopy_eq (dst : List Nat) (off : Nat) (src : List Nat) (n : Nat) :
    n ≤ src.length → off + n ≤ dst.length →
      byteCopy dst off src n =
        some (dst.take off ++ (src.take n ++ dst.drop (off + n))) := by
  induction n with
  | zero =>
    intro _ _
    simp [byteCopy]
  | succ k ih =>
    intro hs hd
    have hk : k < src.length := by omega
    have hx : src[k]? = some src[k] := List.getElem?_eq_getElem hk
    have hlenA : (dst.take off).length = off := by rw [List.length_take]; omega
    have hlenS : (src.take k).length = k := by rw [List.length_take]; omega
    have hdrop : dst.drop (off + k) = dst[off + k] :: dst.drop (off + (k + 1)) := by
      rw [List.drop_eq_getElem_cons (by omega)]
      rfl
    simp only [byteCopy, ih (by omega) (by omega), hx]
    rw [if_pos (by simp only [List.length_append, hlenA, hlenS, List.length_drop]; omega)]
    congr 1
    rw [hdrop, List.set_append, if_neg (by rw [hlenA]; omega), hlenA, List.set_append,
      if_neg (by rw [hlenS]; omega), hlenS]
    have e1 : off + k - off - k = 0 := by omega
    have e3 : src.take (k + 1) = src.take k ++ [src[k]] := by
      rw [List.take_succ, hx]
      rfl
    rw [e1, List.set_cons_zero, e3, List.append_assoc]
    rfl

/-- Out of bounds the byte-wise copy faults. -/
theorem byteCopy_none (dst : List Nat) (off : Nat) (src : List Nat) (n : Nat) (h0 : 0 < n)
    (h : ¬ (n ≤ src.length ∧ off + n ≤ dst.length)) : byteCopy dst off src n = none := by
  cases n with
  | zero => omega
  | succ k =>
    simp only [byteCopy]
    cases hb : byteCopy dst off src k with
    | none => rfl
    | some d =>
      have hlen := byteCopy_length dst off src k d hb
      cases hx : src[k]? with
      | none => rfl
      | some x =>
        have hk : k < src.length := (List.getElem?_eq_some_iff.mp hx).1
        simp only
        rw [if_neg (by rw [hlen]; omega)]

/-- What the copied buffer holds. -/
theorem copied_getElem? (dst src : List Nat) (off n : Nat) (hs : n ≤ src.length)
    (hd : off + n ≤ dst.length) :
    (∀ i, i < n → (dst.take off ++ (src.take n ++ dst.drop (off + n)))[off + i]? = src[i]?) ∧
    (∀ j, j < off ∨ off + n ≤ j →
      (dst.take off ++ (src.take n ++ dst.drop (off + n)))[j]? = dst[j]?) := by
  have hlenA : (dst.take off).length = off := by rw [List.length_take]; omega
  have hlenS : (src.take n).length = n := by rw [List.length_take]; omega
  constructor
  · intro i hi
    rw [List.getElem?_append_right (by rw [hlenA]; omega), hlenA,
      List.getElem?_append_left (by rw [hlenS]; omega)]
    have e : off + i - off = i := by omega
    rw [e, List.getElem?_take_of_lt hi]
  · intro j hj
    rcases hj with hj | hj
    · rw [List.getElem?_append_left (by rw [hlenA]; exact hj), List.getElem?_take_of_lt hj]
    · rw [List.getElem?_append_right (by rw [hlenA]; omega), hlenA,
        List.getElem?_append_right (by rw [hlenS]; omega), hlenS, List.getElem?_drop]
      congr 1
      omega

theorem settled_of_sameFields {p q : Painter} (h : sameFields p q) : settled p q :=
  ⟨h.2.2.2.1, Or.inl ⟨h.1, h.2.1, h.2.2.1⟩⟩

theorem settled_of_accumulatorKept {p q : Painter} (h : accumulatorKept p q) : settled p q :=
  ⟨h.2.2.2, Or.inl ⟨h.1, h.2.1, h.2.2.1⟩⟩

/-- What `flushPending` runs before it resets the accumulator returns or throws with the
fields of the painter as they were. -/
theorem pendingExecution_keeps {E : Env} {p r : Painter}
    (h : (if p.verticesPending > 0 then
            match p.materialPending with
            | none => Outcome.fault
            | some m => executeDrawQuads E m p.verticesPending p.vertexBuffer p
          else Outcome.ok p).leaves r) : sameFields p r := by
  by_cases hv : p.verticesPending > 0
  · rw [if_pos hv] at h
    cases hm : p.materialPending with
    | none =>
      rw [hm] at h
      rcases h with h | h <;> simp at h
    | some m =>
      rw [hm] at h
      have hk := executeDrawQuads_keeps E m p.verticesPending p.vertexBuffer p
      rcases h with h | h
      · have h2 : executeDrawQuads E m p.verticesPending p.vertexBuffer p = .ok r := h
        rw [h2] at hk
        exact hk
      · have h2 : executeDrawQuads E m p.verticesPending p.vertexBuffer p = .thrown r := h
        rw [h2] at hk
        exact hk
  · rw [if_neg hv] at h
    rcases h with h | h
    · simp only [Outcome.ok.injEq] at h
      rw [← h]
      exact sameFields_refl p
    · simp at h

/-- A `flushPending` that threw has kept the accumulator; one that returned has reset it and
kept the buffer. -/
theorem flushPending_leaves {E : Env} {p q : Painter} (h : (flushPending E p).leaves q) :
    (flushPending E p = .thrown q ∧ sameFields p q) ∨
    (flushPending E p = .ok q ∧ q.verticesPending = 0 ∧ q.bytesPending = 0 ∧
      q.materialPending = none ∧ q.vertexBuffer = p.vertexBuffer ∧
      q.projection = p.projection) := by
  have h' := h
  unfold flushPending at h
  rcases bind_cases h with h1 | ⟨r, h1, h2⟩
  · left
    refine ⟨?_, pendingExecution_keeps (Or.inr h1)⟩
    unfold flushPending
    rw [h1]
    rfl
  · right
    have hk := pendingExecution_keeps (Or.inl h1)
    rcases h2 with h2 | h2
    · simp only [Outcome.ok.injEq] at h2
      subst h2
      refine ⟨?_, rfl, rfl, rfl, hk.2.2.2.1, hk.2.2.2.2⟩
      unfold flushPending
      rw [h1]
      rfl
    · simp at h2

theorem flushPending_settled {E : Env} {p q : Painter} (h : (flushPending E p).leaves q) :
    settled p q := by
  rcases flushPending_leaves h with ⟨-, hk⟩ | ⟨-, hv, hb, -, hbuf, -⟩
  · exact settled_of_sameFields hk
  · exact ⟨hbuf, Or.inr ⟨hv, hb⟩⟩

theorem settled_trans_call {E : Env} {c : Call} {p r q : Painter} (h : settled p r)
    (hc : (call E c r).leaves q) : settled p q := by
  rw [call_result hc]
  exact h

theorem startRender_settled {E : Env} {p q : Painter} (h : (startRender E p).leaves q) :
    settled p q := by
  unfold startRender at h
  rw [call_result h]
  exact ⟨rfl, Or.inr ⟨rfl, rfl⟩⟩

theorem endRender_settled {E : Env} {p q : Painter} (h : (endRender E p).leaves q) :
    settled p q := by
  unfold endRender flush at h
  rcases bind_cases h with h1 | ⟨r, h1, h2⟩
  · exact flushPending_settled (Or.inr h1)
  · exact settled_trans_call (flushPending_settled (Or.inl h1)) h2

/-- Lines 55-60 of `drawQuads` that threw have kept the accumulator. -/
theorem selectMaterial_thrown {E : Env} {material : Option Nat} {p q : Painter}
    (h : selectMaterial E material p = .thrown q) : sameFields p q := by
  unfold selectMaterial at h
  by_cases hm : material = p.materialPending
  · simp [hm] at h
  · simp only [ne_eq, hm, not_false_eq_true, if_true] at h
    by_cases hn : p.materialPending = none
    · simp [hn, Outcome.bind] at h
    · simp only [hn, not_false_eq_true, if_true] at h
      cases hf : flushPending E p with
      | ok r => rw [hf] at h; simp [Outcome.bind] at h
      | fault => rw [hf] at h; simp [Outcome.bind] at h
      | thrown r =>
        rw [hf] at h
        simp only [Outcome.bind, Outcome.thrown.injEq] at h
        subst h
        rcases flushPending_leaves (Or.inr hf) with ⟨-, hk⟩ | ⟨h3, -⟩
        · exact hk
        · rw [h3] at hf
          simp at hf

/-- Lines 55-60 of `drawQuads` that returned. -/
theorem selectMaterial_ok_selected {E : Env} {m : Nat} {p p1 : Painter}
    (h : selectMaterial E (some m) p = .ok p1) : selected m p p1 := by
  unfold selectMaterial at h
  by_cases hm : some m = p.materialPending
  · simp only [hm, ne_eq, not_true_eq_false, if_false, Outcome.ok.injEq] at h
    subst h
    exact ⟨hm.symm, rfl, Or.inl ⟨rfl, rfl, Or.inl hm.symm⟩⟩
  · simp only [ne_eq, hm, not_false_eq_true, if_true] at h
    by_cases hn : p.materialPending = none
    · simp only [hn, not_true_eq_false, if_false, Outcome.bind, Outcome.ok.injEq] at h
      subst h
      exact ⟨rfl, rfl, Or.inl ⟨rfl, rfl, Or.inr hn⟩⟩
    · simp only [hn, not_false_eq_true, if_true] at h
      cases hf : flushPending E p with
      | thrown r => rw [hf] at h; simp [Outcome.bind] at h
      | fault => rw [hf] at h; simp [Outcome.bind] at h
      | ok r =>
        rw [hf] at h
        simp only [Outcome.bind, Outcome.ok.injEq] at h
        subst h
        rcases flushPending_leaves (Or.inl hf) with ⟨h3, -⟩ | ⟨-, hv, hb, -, hbuf, -⟩
        · rw [h3] at hf
          simp at hf
        · exact ⟨rfl, hbuf, Or.inr ⟨hv, hb⟩⟩

/-- The fields after an `appendVertices` that returned. -/
theorem appendVertices_ok_fields {E : Env} {m n : Nat} {data : List Nat} {p q : Painter}
    (h : appendVertices E (some m) n data p = .ok q) :
    memcpyAlign (bufferAtCopy E m n p) p.bytesPending data (dataSize E m n) =
      some q.vertexBuffer ∧
    q.verticesPending = (p.verticesPending + n) % SIZE_MOD ∧
    q.bytesPending = (p.bytesPending + dataSize E m n) % SIZE_MOD ∧
    q.materialPending = p.materialPending ∧ q.projection = p.projection ∧ q.log = p.log := by
  rw [appendVertices_eq] at h
  cases hc : memcpyAlign (bufferAtCopy E m n p) p.bytesPending data (dataSize E m n) with
  | none => rw [hc] at h; simp at h
  | some buf1 =>
    rw [hc] at h
    simp only [Outcome.ok.injEq] at h
    subst h
    exact ⟨rfl, rfl, rfl, rfl, rfl, rfl⟩

/-- The copy `appendVertices` makes does not throw. -/
theorem appendVertices_not_thrown (E : Env) (material : Option Nat) (n : Nat)
    (data : List Nat) (p q : Painter) : appendVertices E material n data p ≠ .thrown q := by
  cases material with
  | none => simp [appendVertices]
  | some m =>
    rw [appendVertices_eq]
    split <;> simp

/-- A `drawQuads` that returned or threw: the flush of another material threw and the
accumulator is kept, or the material was selected and the vertices were appended. -/
theorem drawQuads_leaves {E : Env} {material : Option Nat} {n : Nat}
    {vertexData : Option (List Nat)} {p q : Painter}
    (h : (drawQuads E material n vertexData p).leaves q) :
    (drawQuads E material n vertexData p = .thrown q ∧ sameFields p q) ∨
    ∃ m d p1, material = some m ∧ vertexData = some d ∧ 0 < n ∧ n % 4 = 0 ∧
      selectMaterial E (some m) p = .ok p1 ∧
      appendVertices E (some m) n d p1 = .ok q ∧
      drawQuads E material n vertexData p = .ok q := by
  have h' := h
  unfold drawQuads at h
  by_cases h0 : n > 0
  · by_cases h4 : n % 4 = 0
    · cases vertexData with
      | none =>
        simp only [h0, h4, not_true_eq_false, if_false] at h
        rcases h with h | h <;> simp at h
      | some d =>
        simp only [h0, h4, not_true_eq_false, if_false] at h
        rcases bind_cases h with h1 | ⟨p1, h1, h2⟩
        · left
          refine ⟨?_, selectMaterial_thrown h1⟩
          simp only [drawQuads, h0, h4, not_true_eq_false, if_false, h1]
          rfl
        · right
          cases material with
          | none =>
            rcases h2 with h2 | h2 <;> simp [appendVertices] at h2
          | some m =>
            rcases h2 with h2 | h2
            · refine ⟨m, d, p1, rfl, rfl, h0, h4, h1, h2, ?_⟩
              simp only [drawQuads, h0, h4, not_true_eq_false, if_false, h1]
              exact h2
            · exact absurd h2 (appendVertices_not_thrown E _ n d p1 q)
    · simp only [h0, h4, not_true_eq_false, not_false_eq_true, if_true, if_false] at h
      rcases h with h | h <;> simp at h
  · simp only [h0, not_false_eq_true, if_true] at h
    rcases h with h | h <;> simp at h

/-- What an operation that returned or threw has done to the accumulator. -/
theorem op_leaves {E : Env} {op : Op} {p q : Painter} (h : (op.run E p).leaves q) :
    settled p q ∨
    ∃ m n d p1, op = .drawQuads (some m) n (some d) ∧ 0 < n ∧ n % 4 = 0 ∧
      selected m p p1 ∧ appendVertices E (some m) n d p1 = .ok q := by
  cases op with
  | startRender =>
    have h1 : (Halley.startRender E p).leaves q := h
    exact Or.inl (startRender_settled h1)
  | flush =>
    have h1 : (flushPending E p).leaves q := h
    exact Or.inl (flushPending_settled h1)
  | endRender =>
    have h1 : (Halley.endRender E p).leaves q := h
    exact Or.inl (endRender_settled h1)
  | bind context =>
    have h1 : (Halley.bind E context p).leaves q := h
    exact Or.inl (settled_of_accumulatorKept (bind_accumulatorKept h1))
  | drawQuads material n vertexData =>
    have h1 : (Halley.drawQuads E material n vertexData p).leaves q := h
    rcases drawQuads_leaves h1 with ⟨-, hk⟩ | ⟨m, d, p1, hm, hd, h0, h4, hsel, happ, -⟩
    · exact Or.inl (settled_of_sameFields hk)
    · subst hm hd
      exact Or.inr ⟨m, n, d, p1, rfl, h0, h4, selectMaterial_ok_selected hsel, happ⟩

/-- A property of the initial states that every allowed operation preserves holds in every
reachable state. -/
theorem Reachable.invariant {E : Env} {init : Painter → Prop} {allowed : Op → Prop}
    (Inv : Painter → Prop) (hinit : ∀ p, init p → Inv p)
    (hstep : ∀ op p q, allowed op → Inv p → (op.run E p).leaves q → Inv q) :
    ∀ p, Reachable E init allowed p → Inv p := by
  intro p hp
  induction hp with
  | start h => exact hinit _ h
  | step op _ ha hl ih => exact hstep op _ _ ha ih hl

/-- A copy of a positive number of bytes that returned stayed within source and buffer. -/
theorem memcpyAlign_some_bounds {dst src r : List Nat} {off bytes : Nat}
    (h4 : bytes % 4 = 0) (h0 : 0 < bytes) (h : memcpyAlign dst off src bytes = some r) :
    bytes ≤ src.length ∧ off + bytes ≤ dst.length := by
  by_contra hin
  have hnone : memcpyAlign dst off src bytes = none := by
    unfold memcpyAlign doMemcpyAlign
    split
    · apply doMemcpyAlignLoop_none 8 src (bytes / 8) 0 off dst (by omega)
      have hb : bytes / 8 * 8 = bytes := by omega
      rw [hb]
      simpa using hin
    · apply doMemcpyAlignLoop_none 4 src (bytes / 4) 0 off dst (by omega)
      have hb : bytes / 4 * 4 = bytes := by omega
      rw [hb]
      simpa using hin
  rw [hnone] at h
  simp at h

theorem dataSize_mod_four (E : Env) (m n : Nat) (h4 : n % 4 = 0) : dataSize E m n % 4 = 0 := by
  have h1 : (n * (E.materials m).vertexStride) % 4 = 0 := by
    rw [Nat.mul_mod, h4]; simp
  unfold dataSize SIZE_MOD
  omega

/-- With material `m` or no material pending, lines 55-60 of `drawQuads` only set the pending
material. -/
theorem selectMaterial_silent (E : Env) (m : Nat) (p : Painter)
    (hm : p.materialPending = some m ∨ p.materialPending = none) :
    selectMaterial E (some m) p = .ok { p with materialPending := some m } := by
  rcases hm with hm | hm
  · rw [selectMaterial_same E m p hm]
    cases p
    simp_all
  · simp [selectMaterial, hm, Outcome.bind]

/-- No material pending implies no vertex pending: every operation preserves it. -/
theorem noMaterial_step {E : Env} {op : Op} {p q : Painter}
    (hp : p.materialPending = none → p.verticesPending = 0) (h : (op.run E p).leaves q) :
    q.materialPending = none → q.verticesPending = 0 := by
  rcases op_leaves h with ⟨-, hk | hk⟩ | ⟨m, n, d, p1, -, -, -, hsel, happ⟩
  · intro hq
    rw [hk.1]
    exact hp (by rw [← hk.2.2]; exact hq)
  · intro _
    exact hk.1
  · intro hq
    obtain ⟨-, -, -, hmat, -, -⟩ := appendVertices_ok_fields happ
    rw [hmat, hsel.1] at hq
    simp at hq

/-- With a material behind every pending vertex `flushPending` does not fault. -/
theorem flushPending_not_fault (E : Env) (p : Painter)
    (h : 0 < p.verticesPending → ∃ m, p.materialPending = some m) :
    flushPending E p ≠ .fault := by
  unfold flushPending
  by_cases hv : p.verticesPending > 0
  · obtain ⟨m, hm⟩ := h hv
    rw [if_pos hv, hm]
    have hk := executeDrawQuads_keeps E m p.verticesPending p.vertexBuffer p
    show (executeDrawQuads E m p.verticesPending p.vertexBuffer p).bind _ ≠ _
    cases he : executeDrawQuads E m p.verticesPending p.vertexBuffer p with
    | ok r => simp [Outcome.bind]
    | thrown r => simp [Outcome.bind]
    | fault =>
      rw [he] at hk
      exact absurd hk (by simp [Outcome.keeps])
  · rw [if_neg hv]
    simp [Outcome.bind]

/-- One quad of material 1 after `startRender` is reachable. -/
theorem reachable_quadPending {init : Painter → Prop} {allowed : Op → Prop}
    (hinit : init startedPainter)
    (hallowed : allowed (.drawQuads (some 1) 4 (some quadBytes))) :
    Reachable demoEnv init allowed quadPendingPainter :=
  Reachable.step _ (Reachable.start hinit) hallowed (Or.inl (by decide))

/-- The state `startedPainter` is what `startRender` leaves of `emptyPainter`. -/
theorem afterStartRender_started : afterStartRender demoEnv startedPainter :=
  ⟨emptyPainter, Or.inl (by decide)⟩

theorem batchExact_settled {E : Env} {p q : Painter} (hp : batchExact E p)
    (h : settled p q) : batchExact E q := by
  obtain ⟨hbuf, hk | hk⟩ := h
  · obtain ⟨hv, hb, hm⟩ := hk
    unfold batchExact
    rw [hv, hb, hm, hbuf]
    exact hp
  · unfold batchExact
    rw [hk.1, hk.2, hbuf]
    exact ⟨rfl, fun _ => ⟨rfl, rfl⟩, fun m _ => by simp, hp.2.2.2⟩

theorem batchModular_settled {E : Env} {p q : Painter} (hp : batchModular E p)
    (h : settled p q) : batchModular E q := by
  obtain ⟨hbuf, hk | hk⟩ := h
  · obtain ⟨hv, hb, hm⟩ := hk
    unfold batchModular
    rw [hv, hb, hm]
    exact hp
  · unfold batchModular
    rw [hk.1, hk.2]
    exact ⟨rfl, fun _ => ⟨rfl, rfl⟩, fun m _ => by simp⟩

theorem length_bufferAtCopy_lt (E : Env) (m n : Nat) (p : Painter)
    (h : p.vertexBuffer.length < SIZE_MOD) : (bufferAtCopy E m n p).length < SIZE_MOD := by
  unfold bufferAtCopy
  split
  · rw [length_resize]
    exact Nat.mod_lt _ (by decide)
  · exact h

/-- Appending the vertices of a valid submission keeps the exact invariant. -/
theorem batchExact_append {E : Env} {m n : Nat} {d : List Nat} {p p1 q : Painter}
    (hp : batchExact E p) (h0 : 0 < n) (h4 : n % 4 = 0)
    (hdata : n * (E.materials m).vertexStride ≤ d.length) (hlen : d.length < SIZE_MOD)
    (hsel : selected m p p1) (happ : appendVertices E (some m) n d p1 = .ok q) :
    batchExact E q := by
  obtain ⟨hv4, hnone, hsome, hlenp⟩ := hp
  obtain ⟨hm1, hbuf1, hcnt⟩ := hsel
  have hv1 : p1.verticesPending % 4 = 0 := by
    rcases hcnt with ⟨h, -, -⟩ | ⟨h, -⟩
    · rw [h]; exact hv4
    · rw [h]
  have hb1 : p1.bytesPending = p1.verticesPending * (E.materials m).vertexStride := by
    rcases hcnt with ⟨h1, h2, h3 | h3⟩ | ⟨h1, h2⟩
    · rw [h1, h2]; exact hsome m h3
    · obtain ⟨a, b⟩ := hnone h3
      rw [h1, h2, a, b]; simp
    · rw [h1, h2]; simp
  obtain ⟨hcopy, hqv, hqb, hqm, -, -⟩ := appendVertices_ok_fields happ
  have hds : dataSize E m n = n * (E.materials m).vertexStride :=
    Nat.mod_eq_of_lt (by omega)
  have hqlen := memcpyAlign_length hcopy
  have hL := length_bufferAtCopy_lt E m n p1 (by rw [hbuf1]; exact hlenp)
  refine ⟨?_, ?_, ?_, ?_⟩
  · rw [hqv]
    unfold SIZE_MOD
    omega
  · intro hq
    rw [hqm, hm1] at hq
    simp at hq
  · intro m' hm'
    rw [hqm, hm1] at hm'
    simp only [Option.some.injEq] at hm'
    subst hm'
    rcases Nat.eq_zero_or_pos (E.materials m).vertexStride with hs0 | hs0
    · rw [hqb, hds, hb1, hs0]
      simp
    · have hpos : 0 < dataSize E m n := by
        rw [hds]
        exact Nat.mul_pos h0 hs0
      obtain ⟨-, hin⟩ := memcpyAlign_some_bounds (dataSize_mod_four E m n h4) hpos hcopy
      rw [hds] at hin
      have hle : p1.verticesPending + n ≤
          (p1.verticesPending + n) * (E.materials m).vertexStride :=
        Nat.le_mul_of_pos_right _ hs0
      have hexp : (p1.verticesPending + n) * (E.materials m).vertexStride =
          p1.verticesPending * (E.materials m).vertexStride +
            n * (E.materials m).vertexStride := Nat.add_mul _ _ _
      rw [hqb, hqv, hds, Nat.mod_eq_of_lt (by omega), Nat.mod_eq_of_lt (by omega), hexp, hb1]
  · rw [hqlen]
    exact hL

/-- Appending vertices keeps the invariant in `size_t` arithmetic. -/
theorem batchModular_append {E : Env} {m n : Nat} {d : List Nat} {p p1 q : Painter}
    (hp : batchModular E p) (h4 : n % 4 = 0)
    (hsel : selected m p p1) (happ : appendVertices E (some m) n d p1 = .ok q) :
    batchModular E q := by
  obtain ⟨hv4, hnone, hsome⟩ := hp
  obtain ⟨hm1, hbuf1, hcnt⟩ := hsel
  have hv1 : p1.verticesPending % 4 = 0 := by
    rcases hcnt with ⟨h, -, -⟩ | ⟨h, -⟩
    · rw [h]; exact hv4
    · rw [h]
  have hb1 : p1.bytesPending =
      (p1.verticesPending * (E.materials m).vertexStride) % SIZE_MOD := by
    rcases hcnt with ⟨h1, h2, h3 | h3⟩ | ⟨h1, h2⟩
    · rw [h1, h2]; exact hsome m h3
    · obtain ⟨a, b⟩ := hnone h3
      rw [h1, h2, a, b]; simp
    · rw [h1, h2]; simp
  obtain ⟨-, hqv, hqb, hqm, -, -⟩ := appendVertices_ok_fields happ
  refine ⟨?_, ?_, ?_⟩
  · rw [hqv]
    unfold SIZE_MOD
    omega
  · intro hq
    rw [hqm, hm1] at hq
    simp at hq
  · intro m' hm'
    rw [hqm, hm1] at hm'
    simp only [Option.some.injEq] at hm'
    subst hm'
    rw [hqb, hqv, hb1]
    unfold dataSize
    rw [Nat.mod_mul_mod, Nat.add_mul, ← Nat.add_mod]

theorem batchExact_step {E : Env} {op : Op} {p q : Painter} (hop : op.valid E)
    (hp : batchExact E p) (h : (op.run E p).leaves q) : batchExact E q := by
  rcases op_leaves h with hs | ⟨m, n, d, p1, hop1, h0, h4, hsel, happ⟩
  · exact batchExact_settled hp hs
  · subst hop1
    obtain ⟨-, -, hdata, hlen⟩ := hop
    exact batchExact_append hp h0 h4 hdata hlen hsel happ

theorem batchModular_step {E : Env} {op : Op} {p q : Painter}
    (hp : batchModular E p) (h : (op.run E p).leaves q) : batchModular E q := by
  rcases op_leaves h with hs | ⟨m, n, d, p1, -, -, h4, hsel, happ⟩
  · exact batchModular_settled hp hs
  · exact batchModular_append hp h4 hsel happ

/-- After `startRender` both invariants hold. -/
theorem afterStartRender_batch {E : Env} {q : Painter} (h : afterStartRender E q) :
    batchModular E q ∧ (q.vertexBuffer.length < SIZE_MOD → batchExact E q) := by
  obtain ⟨p, hp⟩ := h
  unfold startRender at hp
  rw [call_result hp]
  exact ⟨⟨rfl, fun _ => ⟨rfl, rfl⟩, fun m _ => by simp⟩,
    fun hl => ⟨rfl, fun _ => ⟨rfl, rfl⟩, fun m _ => by simp, hl⟩⟩

/-- Appending vertices to a state whose pending bytes lie in the buffer: the pending bytes
lie in the buffer afterwards, and the buffer has not become shorter. -/
theorem appendVertices_keeps_within {E : Env} {m n : Nat} {d : List Nat} {p1 q : Painter}
    (h4 : n % 4 = 0) (hp1 : p1.bytesPending ≤ p1.vertexBuffer.length)
    (happ : appendVertices E (some m) n d p1 = .ok q) :
    q.bytesPending ≤ q.vertexBuffer.length ∧
    p1.vertexBuffer.length ≤ q.vertexBuffer.length := by
  obtain ⟨hcopy, -, hqb, -, -, -⟩ := appendVertices_ok_fields happ
  have hqlen := memcpyAlign_length hcopy
  rcases Nat.eq_zero_or_pos (dataSize E m n) with hd0 | hpos
  · have hreq : requiredSize E m n p1 ≤ p1.bytesPending := by
      unfold requiredSize
      rw [hd0, Nat.zero_add]
      exact Nat.mod_le _ _
    have hbuf : bufferAtCopy E m n p1 = p1.vertexBuffer := by
      unfold bufferAtCopy
      rw [if_neg (by omega)]
    rw [hbuf] at hqlen
    have hle : q.bytesPending ≤ p1.bytesPending := by
      rw [hqb, hd0, Nat.add_zero]
      exact Nat.mod_le _ _
    omega
  · obtain ⟨-, hin⟩ := memcpyAlign_some_bounds (dataSize_mod_four E m n h4) hpos hcopy
    have hle : q.bytesPending ≤ p1.bytesPending + dataSize E m n := by
      rw [hqb]
      exact Nat.mod_le _ _
    refine ⟨by omega, ?_⟩
    rw [hqlen]
    unfold bufferAtCopy at hin ⊢
    split
    · next hlt =>
      rw [if_pos hlt] at hin
      have hreq : requiredSize E m n p1 ≤ dataSize E m n + p1.bytesPending := by
        unfold requiredSize
        exact Nat.mod_le _ _
      omega
    · exact Nat.le_refl _

theorem bytesWithin_step {E : Env} {op : Op} {p q : Painter}
    (hp : p.bytesPending ≤ p.vertexBuffer.length) (h : (op.run E p).leaves q) :
    q.bytesPending ≤ q.vertexBuffer.length := by
  rcases op_leaves h with ⟨hbuf, hk | hk⟩ | ⟨m, n, d, p1, -, -, h4, hsel, happ⟩
  · rw [hbuf, hk.2.1]
    exact hp
  · rw [hk.2]
    exact Nat.zero_le _
  · obtain ⟨-, hbuf1, hcnt⟩ := hsel
    have hp1 : p1.bytesPending ≤ p1.vertexBuffer.length := by
      rcases hcnt with ⟨-, h2, -⟩ | ⟨-, h2⟩
      · rw [h2, hbuf1]; exact hp
      · rw [h2]; exact Nat.zero_le _
    exact (appendVertices_keeps_within h4 hp1 happ).1

/-- In every state reached from a `startRender` the bytes pending lie within the buffer. -/
theorem reachable_bytesWithin {E : Env} {p : Painter}
    (hp : Reachable E (afterStartRender E) (fun _ => True) p) :
    p.bytesPending ≤ p.vertexBuffer.length := by
  refine Reachable.invariant (fun p => p.bytesPending ≤ p.vertexBuffer.length) ?_
    (fun op p q _ hp hl => bytesWithin_step hp hl) p hp
  rintro q ⟨p0, hq⟩
  unfold startRender at hq
  rw [call_result hq]
  exact Nat.zero_le _

/-! ## The claims -/

/-- Claim C1, amended.  In a frame (`startRender`, the submissions, `endRender`) in which no
outside call throws, every submission is valid, the vertex counts sum to less than `2 ^ 64`
and twice the byte counts sum to less than `2 ^ 64`, the executions are, in the order of
submission, exactly one per maximal run of consecutive submissions with the same material:
with the material of the run, the sum of its vertex counts and, as vertex bytes, the
submitted bytes of the run one after the other.  Afterwards nothing is pending. -/
theorem frame_executes_runs (E : Env) (hE : E.reliable) (p : Painter)
    (subs : List Submission) (hvalid : ∀ s ∈ subs, s.valid E)
    (hv : totalVertices subs < SIZE_MOD) (hb : 2 * totalBytes E subs < SIZE_MOD) :
    ∃ q, frame E subs p = .ok q ∧
      executedBatches E q.log = executedBatches E p.log ++ expectedBatches E subs ∧
      q.verticesPending = 0 ∧ q.bytesPending = 0 := by
  unfold frame
  rw [startRender_ok hE, Outcome.bind]
  cases subs with
  | nil =>
    simp only [submitAll, Outcome.bind]
    refine ⟨_, endRender_empty hE _ rfl, ?_, rfl, rfl⟩
    simp [expectedBatches, executedBatches, executions_append, executions]
  | cons a rest =>
    have ha : a.valid E := hvalid a (by simp)
    have hrest : ∀ s ∈ rest, s.valid E := fun s hs => hvalid s (by simp [hs])
    simp only [totalVertices, totalBytes, List.map_cons, List.sum_cons] at hv hb
    obtain ⟨q, hq, hpq, hql, -, hqv, hqb⟩ :=
      pending_first E a
        { p with verticesPending := 0, bytesPending := 0,
                 log := p.log ++ [Call.doStartRender] } ha rfl rfl (by omega) (by omega)
    have hone : [a] = (a :: ([] : List Submission)).reverse := by simp
    rw [hone] at hpq
    obtain ⟨r, hr, hrl, h1, h2, -⟩ := submitAll_runs hE rest a [] [] q
      (executedBatches E p.log) hrest hpq
      (by simp only [totalVertices]; omega) (by simp only [totalBytes]; omega)
      (by rw [hql]; simp [executedBatches, executions_append, executions])
    refine ⟨r, by simpa [submitAll, hq, Outcome.bind] using hr, ?_, h1, h2⟩
    rw [hrl]
    rfl

/-- Claim C1, instance of the amended statement: two submissions with material 1 and one with
material 2, an object with the same contents, are drawn as a batch of 12 vertices and a
batch of 4 vertices. -/
theorem frame_executes_runs_witness :
    (∃ q, frame demoEnv [⟨1, 4, quadBytes⟩, ⟨1, 8, quadBytes ++ quadBytes⟩, ⟨2, 4, quadBytes⟩]
        emptyPainter = .ok q ∧
      executedBatches demoEnv q.log = executedBatches demoEnv emptyPainter.log ++
        expectedBatches demoEnv
          [⟨1, 4, quadBytes⟩, ⟨1, 8, quadBytes ++ quadBytes⟩, ⟨2, 4, quadBytes⟩] ∧
      q.verticesPending = 0 ∧ q.bytesPending = 0) ∧
    expectedBatches demoEnv
        [⟨1, 4, quadBytes⟩, ⟨1, 8, quadBytes ++ quadBytes⟩, ⟨2, 4, quadBytes⟩] =
      [⟨1, 12, quadBytes ++ (quadBytes ++ quadBytes)⟩, ⟨2, 4, quadBytes⟩] :=
  ⟨frame_executes_runs demoEnv demoEnv_reliable emptyPainter _ (by decide) (by decide)
    (by decide), by decide⟩

/-- Claim C1, counterexample.  Two valid submissions of `2 ^ 63` vertices each, with one
material of stride 0, make `verticesPending` wrap around to 0: the frame ends without any
execution, although the run asks for one batch of `2 ^ 64` vertices. -/
theorem frame_drops_wrapped_run :
    (∀ s ∈ [(⟨1, 2 ^ 63, []⟩ : Submission), ⟨1, 2 ^ 63, []⟩], s.valid zeroStrideEnv) ∧
    frame zeroStrideEnv [⟨1, 2 ^ 63, []⟩, ⟨1, 2 ^ 63, []⟩] emptyPainter =
      .ok { emptyPainter with log := [.doStartRender, .doEndRender] } ∧
    expectedBatches zeroStrideEnv [⟨1, 2 ^ 63, []⟩, ⟨1, 2 ^ 63, []⟩] = [⟨1, 2 ^ 64, []⟩] := by
  decide

/-- Claim C2, amended.  From an empty pending batch, after a non-empty list of valid
submissions that all use the material `m`, with vertex counts summing to less than `2 ^ 64`
and twice the byte counts to less than `2 ^ 64`: `bytesPending` is the sum of
`numVertices * stride`, `verticesPending` is the sum of the vertex counts, and a flush that
meets no failing outside call adds exactly one execution, for `m`, with that vertex sum. -/
theorem same_material_accumulates (E : Env) (hE : E.reliable) (p : Painter) (m : Nat)
    (subs : List Submission) (hne : subs ≠ [])
    (hv0 : p.verticesPending = 0) (hb0 : p.bytesPending = 0)
    (hvalid : ∀ s ∈ subs, s.valid E) (hsame : ∀ s ∈ subs, s.material = m)
    (hv : totalVertices subs < SIZE_MOD) (hb : 2 * totalBytes E subs < SIZE_MOD) :
    ∃ q, submitAll E subs p = .ok q ∧
      q.bytesPending = (subs.map fun s => s.numVertices * (E.materials m).vertexStride).sum ∧
      q.verticesPending = totalVertices subs ∧
      ∃ r, flush E q = .ok r ∧
        executions r.log = executions p.log ++ [(m, totalVertices subs, q.vertexBuffer)] := by
  obtain ⟨a, rest, rfl⟩ := List.exists_cons_of_ne_nil hne
  have ha : a.valid E := hvalid a (by simp)
  have hma : a.material = m := hsame a (by simp)
  have hv' := hv
  have hb' := hb
  simp only [totalVertices, totalBytes, List.map_cons, List.sum_cons] at hv' hb'
  obtain ⟨q, hq, hpq, hql, -, hqv, hqb⟩ := pending_first E a p ha hv0 hb0 (by omega) (by omega)
  rw [hma] at hpq
  obtain ⟨r, hr, hpr, hrl, -, hrv, hrb⟩ := submitAll_same E m rest q [a]
    (fun s hs => hvalid s (by simp [hs])) (fun s hs => hsame s (by simp [hs])) hpq
    (by simp only [totalVertices]; omega) (by simp only [totalBytes]; omega)
  have hrv' : r.verticesPending = totalVertices (a :: rest) := by
    simp only [totalVertices, List.map_cons, List.sum_cons] at hrv ⊢
    omega
  have hbytes : totalBytes E (a :: rest) =
      ((a :: rest).map fun s => s.numVertices * (E.materials m).vertexStride).sum := by
    unfold totalBytes
    congr 1
    apply List.map_congr_left
    intro s hs
    rw [Submission.dataSize, hsame s hs]
  refine ⟨r, by simpa [submitAll, hq, Outcome.bind] using hr, ?_, hrv', ?_⟩
  · rw [← hbytes, hrb, hqb]
    simp only [totalBytes, List.map_cons, List.sum_cons]
  · obtain ⟨hm, -, -, hpos, -, -⟩ := hpr
    refine ⟨_, flushPending_ok hE r m hpos hm, ?_⟩
    show executions (_ ++ _) = _
    rw [executions_append, executions_executionCalls, hrl, hql, hrv']

/-- Claim C2, instance of the amended statement: 4 and 8 vertices of material 1. -/
theorem same_material_accumulates_witness :
    ∃ q, submitAll demoEnv [⟨1, 4, quadBytes⟩, ⟨1, 8, quadBytes ++ quadBytes⟩]
        emptyPainter = .ok q ∧
      q.bytesPending = ([(⟨1, 4, quadBytes⟩ : Submission), ⟨1, 8, quadBytes ++ quadBytes⟩].map
        fun s => s.numVertices * (demoEnv.materials 1).vertexStride).sum ∧
      q.verticesPending = totalVertices [⟨1, 4, quadBytes⟩, ⟨1, 8, quadBytes ++ quadBytes⟩] ∧
      ∃ r, flush demoEnv q = .ok r ∧
        executions r.log = executions emptyPainter.log ++
          [(1, totalVertices [⟨1, 4, quadBytes⟩, ⟨1, 8, quadBytes ++ quadBytes⟩],
            q.vertexBuffer)] :=
  same_material_accumulates demoEnv demoEnv_reliable emptyPainter 1 _ (List.cons_ne_nil _ _)
    rfl rfl (by decide) (by decide) (by decide) (by decide)

/-- Claim C2, counterexample.  After two valid submissions of `2 ^ 63` vertices with the same
material (stride 0) `verticesPending` is 0 and not the sum `2 ^ 64`, and the flush that
follows executes nothing. -/
theorem same_material_vertex_count_wraps :
    (∀ s ∈ [(⟨1, 2 ^ 63, []⟩ : Submission), ⟨1, 2 ^ 63, []⟩], s.valid zeroStrideEnv) ∧
    submitAll zeroStrideEnv [⟨1, 2 ^ 63, []⟩, ⟨1, 2 ^ 63, []⟩] emptyPainter =
      .ok { emptyPainter with materialPending := some 1 } ∧
    totalVertices [⟨1, 2 ^ 63, []⟩, ⟨1, 2 ^ 63, []⟩] = 2 ^ 64 ∧
    flush zeroStrideEnv { emptyPainter with materialPending := some 1 } = .ok emptyPainter := by
  decide

/-- Claim C4.  In a state with `verticesPending > 0` and a pending material, when no outside
call throws, `flush` executes exactly once, with the pending material, the current
`verticesPending` and the contents of the buffer, and afterwards `verticesPending` and
`bytesPending` are 0 and no material is pending. -/
theorem flush_executes_pending_once (E : Env) (hE : E.reliable) (p : Painter) (m : Nat)
    (hv : 0 < p.verticesPending) (hm : p.materialPending = some m) :
    ∃ q, flush E p = .ok q ∧
      executions q.log = executions p.log ++ [(m, p.verticesPending, p.vertexBuffer)] ∧
      q.verticesPending = 0 ∧ q.bytesPending = 0 ∧ q.materialPending = none := by
  refine ⟨_, flushPending_ok hE p m hv hm, ?_, rfl, rfl, rfl⟩
  simp [executions_append, executions_executionCalls]

/-- Claim C4, instance: one pending quad of material 1. -/
theorem flush_executes_pending_once_witness :
    ∃ q, flush demoEnv pendingPainter = .ok q ∧
      executions q.log = executions pendingPainter.log ++ [(1, 4, quadBytes)] ∧
      q.verticesPending = 0 ∧ q.bytesPending = 0 ∧ q.materialPending = none :=
  flush_executes_pending_once demoEnv demoEnv_reliable pendingPainter 1 (by decide) rfl

/-- Claim C5, amended.  When `executeDrawQuads` throws during `flush` or `endRender`, the
exception reaches the caller, and the accumulator is not reset: `verticesPending`,
`bytesPending`, `materialPending` and the buffer are what they were before the call. -/
theorem flush_failure_keeps_batch (E : Env) (p q : Painter) (m : Nat)
    (hv : 0 < p.verticesPending) (hm : p.materialPending = some m)
    (hfail : executeDrawQuads E m p.verticesPending p.vertexBuffer p = .thrown q) :
    flush E p = .thrown q ∧ endRender E p = .thrown q ∧
      q.verticesPending = p.verticesPending ∧ q.bytesPending = p.bytesPending ∧
      q.materialPending = p.materialPending ∧ q.vertexBuffer = p.vertexBuffer := by
  have hk := executeDrawQuads_keeps E m p.verticesPending p.vertexBuffer p
  rw [hfail] at hk
  have hf : flush E p = .thrown q := by
    simp [flush, flushPending, hv, hm, hfail, Outcome.bind]
  refine ⟨hf, ?_, hk.1, hk.2.1, hk.2.2.1, hk.2.2.2.1⟩
  simp [endRender, hf, Outcome.bind]

/-- Claim C5, instance of the amended statement: the vertex upload throws. -/
theorem flush_failure_keeps_batch_witness :
    flush uploadFailsEnv pendingPainter =
      .thrown { pendingPainter with
                log := [.executeDrawQuads 1 4 quadBytes, .setUMvp 1 0,
                        .setVertices 1 4 quadBytes] } ∧
    endRender uploadFailsEnv pendingPainter =
      .thrown { pendingPainter with
                log := [.executeDrawQuads 1 4 quadBytes, .setUMvp 1 0,
                        .setVertices 1 4 quadBytes] } ∧
    (4 : Nat) = pendingPainter.verticesPending ∧ (16 : Nat) = pendingPainter.bytesPending ∧
    some 1 = pendingPainter.materialPending ∧ quadBytes = pendingPainter.vertexBuffer :=
  flush_failure_keeps_batch uploadFailsEnv pendingPainter _ 1 (by decide) rfl (by decide)

/-- Claim C5, counterexample.  With one quad pending and a vertex upload that throws, `flush`
ends by that exception with the four vertices still pending. -/
theorem flush_failure_not_reset :
    flush uploadFailsEnv pendingPainter =
      .thrown { verticesPending := 4, bytesPending := 16, materialPending := some 1,
                vertexBuffer := quadBytes, projection := 0,
                log := [.executeDrawQuads 1 4 quadBytes, .setUMvp 1 0,
                        .setVertices 1 4 quadBytes] } := by
  decide

/-- Claim C6.  `flush` followed by `flush` is `flush`; after a `flush` that returned, a second
`flush` returns the same state, so it records no execution and no outside call; and on a
state with `verticesPending = 0` a `flush` leaves the log as it is. -/
theorem flush_idempotent (E : Env) (p : Painter) :
    (flush E p).bind (flush E) = flush E p ∧
    (∀ q, flush E p = .ok q → flush E q = .ok q) ∧
    (p.verticesPending = 0 → ∃ q, flush E p = .ok q ∧ q.log = p.log) := by
  have key : ∀ q, flush E p = .ok q → flush E q = .ok q := by
    intro q hq
    obtain ⟨h1, h2, h3⟩ := flushPending_ok_reset hq
    exact flushPending_of_reset E q h1 h2 h3
  refine ⟨?_, key, fun hv => ⟨_, flushPending_empty E p hv, rfl⟩⟩
  cases ho : flush E p with
  | ok q => simpa [Outcome.bind] using key q ho
  | thrown q => rfl
  | fault => rfl

/-- Claim C6, instance: the second flush after flushing one pending quad changes nothing. -/
theorem flush_idempotent_witness :
    flush demoEnv pendingPainter =
      .ok { pendingPainter with
            verticesPending := 0, bytesPending := 0, materialPending := none,
            log := [.executeDrawQuads 1 4 quadBytes, .setUMvp 1 0,
                    .setVertices 1 4 quadBytes, .materialBind 1 0, .drawQuads 1] } ∧
    flush demoEnv { pendingPainter with
            verticesPending := 0, bytesPending := 0, materialPending := none,
            log := [.executeDrawQuads 1 4 quadBytes, .setUMvp 1 0,
                    .setVertices 1 4 quadBytes, .materialBind 1 0, .drawQuads 1] } =
      .ok { pendingPainter with
            verticesPending := 0, bytesPending := 0, materialPending := none,
            log := [.executeDrawQuads 1 4 quadBytes, .setUMvp 1 0,
                    .setVertices 1 4 quadBytes, .materialBind 1 0, .drawQuads 1] } :=
  ⟨by decide, (flush_idempotent demoEnv pendingPainter).2.1 _ (by decide)⟩

/-- Claim C7, amended.  For a material with `n >= 0` passes and no throwing outside call,
`executeDrawQuads` with `v` vertices makes exactly these calls, in this order: the
assignment of the cached projection to `u_mvp`, one `setVertices` with the `v` vertices,
then for `i = 0, ..., n - 1` the call `bind(i)` directly followed by one backend
`drawQuads(int(v / 4))`; the quad count `int(v / 4)` is `v / 4` whenever `v / 4 < 2 ^ 31`. -/
theorem executeDrawQuads_call_sequence (E : Env) (hE : E.reliable) (m v n : Nat)
    (d : List Nat) (p : Painter) (hn : (E.materials m).numPasses = (n : Int)) :
    executeDrawQuads E m v d p =
      .ok { p with log := p.log ++
        ([Call.executeDrawQuads m v d, Call.setUMvp m p.projection, Call.setVertices m v d] ++
          (List.range n).flatMap fun i =>
            [Call.materialBind m (i : Int), Call.drawQuads (toInt (v / 4))]) } ∧
    (v / 4 < 2 ^ 31 → toInt (v / 4) = ((v / 4 : Nat) : Int)) := by
  refine ⟨?_, toInt_of_lt _⟩
  rw [executeDrawQuads_ok hE]
  simp [executionCalls, hn, passCalls_eq_range]

/-- Claim C7, instance of the amended statement: 12 vertices and a material with two passes. -/
theorem executeDrawQuads_call_sequence_witness :
    executeDrawQuads demoEnv 4 12 [] emptyPainter =
      .ok { emptyPainter with log := emptyPainter.log ++
        ([Call.executeDrawQuads 4 12 [], Call.setUMvp 4 emptyPainter.projection,
          Call.setVertices 4 12 []] ++
          (List.range 2).flatMap fun i =>
            [Call.materialBind 4 (i : Int), Call.drawQuads (toInt (12 / 4))]) } ∧
    toInt (12 / 4) = ((12 / 4 : Nat) : Int) :=
  ⟨(executeDrawQuads_call_sequence demoEnv demoEnv_reliable 4 12 2 [] emptyPainter rfl).1,
    (executeDrawQuads_call_sequence demoEnv demoEnv_reliable 4 12 2 [] emptyPainter rfl).2
      (by decide)⟩

/-- Claim C7, counterexample.  With `v = 2 ^ 33` vertices the backend is asked to draw
`int(2 ^ 31) = -2147483648` quads, which is not `v / 4`. -/
theorem executeDrawQuads_quad_count_narrowed :
    executeDrawQuads demoEnv 1 (2 ^ 33) [] emptyPainter =
      .ok { emptyPainter with
            log := [.executeDrawQuads 1 (2 ^ 33) [], .setUMvp 1 0, .setVertices 1 (2 ^ 33) [],
                    .materialBind 1 0, .drawQuads (-2147483648)] } ∧
    ((2 ^ 33 / 4 : Nat) : Int) ≠ -2147483648 := by
  decide

/-- Claim C8, amended.  In the end-to-end run (`startRender`, `bind`, 4 and then 8 vertices of
material `a` with stride 32, then 4 vertices of another material `b`), with no throwing
outside call, exactly one execution has happened before `endRender`: the one for `a`, with
12 vertices.  The 4 vertices of `b` are still pending; `endRender` executes them, as the
second execution, and leaves `verticesPending = 0` and `bytesPending = 0`. -/
theorem endToEnd_executes_first_batch_only (E : Env) (hE : E.reliable)
    (context : RenderContext) (a b : Nat) (d1 d2 d3 : List Nat) (p : Painter)
    (hab : a ≠ b)
    (hstride : (E.materials a).vertexStride = 32)
    (h1 : 128 ≤ d1.length) (h2 : 256 ≤ d2.length)
    (h3 : 4 * (E.materials b).vertexStride ≤ d3.length)
    (hfit : 2 * (4 * (E.materials b).vertexStride) < SIZE_MOD) :
    ∃ q r, endToEnd E context a b d1 d2 d3 p = .ok q ∧
      executedBatches E q.log =
        executedBatches E p.log ++ [⟨a, 12, d1.take 128 ++ d2.take 256⟩] ∧
      q.materialPending = some b ∧ q.verticesPending = 4 ∧
      endRender E q = .ok r ∧
      executedBatches E r.log =
        executedBatches E q.log ++ [⟨b, 4, d3.take (4 * (E.materials b).vertexStride)⟩] ∧
      r.verticesPending = 0 ∧ r.bytesPending = 0 := by
  have hva : Submission.valid E ⟨a, 4, d1⟩ := ⟨by norm_num, by norm_num, by
    simp only [Submission.dataSize, hstride]; omega⟩
  have hva2 : Submission.valid E ⟨a, 8, d2⟩ := ⟨by norm_num, by norm_num, by
    simp only [Submission.dataSize, hstride]; omega⟩
  have hvb : Submission.valid E ⟨b, 4, d3⟩ := ⟨by norm_num, by norm_num, by
    simp only [Submission.dataSize]; omega⟩
  have hS : SIZE_MOD = 2 ^ 64 := rfl
  obtain ⟨q1, hq1, hp1, hl1, -, hv1, hb1⟩ := pending_first E ⟨a, 4, d1⟩
    { p with verticesPending := 0, bytesPending := 0,
             projection := E.cameraProjection context.camera context.viewPort.w
               context.viewPort.h
             log := p.log ++ [Call.doStartRender] ++
               [Call.renderTargetBind context.renderTarget,
                Call.setViewPort context.viewPort
                  (decide (context.viewPort ≠ context.targetViewPort)),
                Call.cameraSetViewArea context.viewPort.w context.viewPort.h,
                Call.cameraUpdateProjection] } hva rfl rfl
    (by rw [hS]; norm_num) (by simp only [Submission.dataSize, hstride, hS]; norm_num)
  simp only [Submission.dataSize, hstride] at hb1
  obtain ⟨q2, hq2, hp2, hl2, -, hv2, hb2⟩ := pending_extend E ⟨a, 8, d2⟩ q1 _ hva2 hp1
    (by rw [hv1, hS]; norm_num)
    (by simp only [Submission.dataSize, hstride, hb1, hS]; norm_num)
  simp only [Submission.dataSize, hstride] at hb2
  obtain ⟨q3, hq3, hp3, hl3, -, hv3, hb3⟩ := pending_switch hE ⟨b, 4, d3⟩ q2 _ a hvb hp2
    (fun h => hab h.symm) (by rw [hS]; norm_num) (by simpa [Submission.dataSize] using hfit)
  obtain ⟨r, hr, hrl, hr1, hr2, -⟩ := pending_finish hE q3 _ _ hp3
  have hscen : endToEnd E context a b d1 d2 d3 p = .ok q3 := by
    simp only [endToEnd, startRender_ok hE, bind_ok hE, ok_bind, submitAll]
    rw [hq1, ok_bind, hq2, ok_bind, hq3, ok_bind]
  have hrun : batchOfRun E [⟨a, 4, d1⟩, ⟨a, 8, d2⟩] = ⟨a, 12, d1.take 128 ++ d2.take 256⟩ := by
    simp [batchOfRun, totalVertices, Submission.bytes, Submission.dataSize, hstride]
  have hrunb : batchOfRun E [⟨b, 4, d3⟩] =
      ⟨b, 4, d3.take (4 * (E.materials b).vertexStride)⟩ := by
    simp [batchOfRun, totalVertices, Submission.bytes, Submission.dataSize]
  refine ⟨q3, r, hscen, ?_, hp3.1, hv3, hr, ?_, hr1, hr2⟩
  · rw [hl3, hl2, hl1]
    simp only [List.singleton_append, hrun]
    simp [executedBatches, executions_append, executions]
  · rw [hrl, hrunb]

/-- Claim C8, instance of the amended statement, with the viewport `(0, 0, 800, 600)`. -/
theorem endToEnd_executes_first_batch_only_witness :
    ∃ q r, endToEnd demoEnv demoContext 3 4 (List.replicate 128 1) (List.replicate 256 2)
        (List.replicate 128 3) emptyPainter = .ok q ∧
      executedBatches demoEnv q.log = executedBatches demoEnv emptyPainter.log ++
        [⟨3, 12, (List.replicate 128 1).take 128 ++ (List.replicate 256 2).take 256⟩] ∧
      q.materialPending = some 4 ∧ q.verticesPending = 4 ∧
      endRender demoEnv q = .ok r ∧
      executedBatches demoEnv r.log = executedBatches demoEnv q.log ++
        [⟨4, 4, (List.replicate 128 3).take (4 * (demoEnv.materials 4).vertexStride)⟩] ∧
      r.verticesPending = 0 ∧ r.bytesPending = 0 :=
  endToEnd_executes_first_batch_only demoEnv demoEnv_reliable demoContext 3 4 _ _ _
    emptyPainter (by decide) rfl (by rw [List.length_replicate])
    (by rw [List.length_replicate]) (by rw [List.length_replicate]; decide) (by decide)

set_option maxRecDepth 100000 in
/-- Claim C8, counterexample.  In the end-to-end run with the viewport `(0, 0, 800, 600)`
there is one execution before `endRender`, not two: the 4 vertices of material 4 are still
pending. -/
theorem endToEnd_single_execution_before_endRender :
    ∃ q, endToEnd demoEnv demoContext 3 4 (List.replicate 128 1) (List.replicate 256 2)
        (List.replicate 128 3) emptyPainter = .ok q ∧
      (executions q.log).map (fun e => (e.1, e.2.1)) = [(3, 12)] ∧
      q.materialPending = some 4 ∧ q.verticesPending = 4 ∧ q.bytesPending = 128 :=
  ⟨_, rfl, by decide, by decide, by decide, by decide⟩

/-- Claim C9, amended.  For a valid submission with the pending material, with
`b = bytesPending` and `d = numVertices * stride`, provided `verticesPending + numVertices`
and `b + d` stay below `2 ^ 64` and, when the buffer is shorter than `b + d`, `2 * (b + d)`
stays below `2 ^ 64`: every byte the buffer held at an offset below `b` is unchanged, the
`d` bytes from offset `b` on are the first `d` submitted bytes, `bytesPending` is `b + d`
and `verticesPending` has grown by `numVertices`. -/
theorem drawQuads_same_material_appends (E : Env) (s : Submission) (p : Painter)
    (hs : s.valid E) (hm : p.materialPending = some s.material)
    (hv : p.verticesPending + s.numVertices < SIZE_MOD)
    (hfit : p.bytesPending + s.dataSize E < SIZE_MOD)
    (hgrow : p.vertexBuffer.length < p.bytesPending + s.dataSize E →
      2 * (p.bytesPending + s.dataSize E) < SIZE_MOD) :
    ∃ q, submit E s p = .ok q ∧
      (∀ i x, i < p.bytesPending → p.vertexBuffer[i]? = some x → q.vertexBuffer[i]? = some x) ∧
      (q.vertexBuffer.drop p.bytesPending).take (s.dataSize E) =
        s.vertexData.take (s.dataSize E) ∧
      q.bytesPending = p.bytesPending + s.dataSize E ∧
      q.verticesPending = p.verticesPending + s.numVertices := by
  have hs' := hs
  obtain ⟨h0, h4, hdata⟩ := hs
  unfold Submission.dataSize at hdata hfit hgrow ⊢
  have hG := length_grownBuffer_ge p.vertexBuffer
    (s.numVertices * (E.materials s.material).vertexStride + p.bytesPending)
  have hlenA : ((grownBuffer p.vertexBuffer
      (s.numVertices * (E.materials s.material).vertexStride + p.bytesPending)).take
        p.bytesPending).length = p.bytesPending := by
    rw [List.length_take]; omega
  have hlenD : (s.vertexData.take
      (s.numVertices * (E.materials s.material).vertexStride)).length =
      s.numVertices * (E.materials s.material).vertexStride := by
    rw [List.length_take]; omega
  have hsub : submit E s p =
      appendVertices E (some s.material) s.numVertices s.vertexData p := by
    rw [submit_eq E s p hs', selectMaterial_same E _ p hm]
    rfl
  have hq := appendVertices_ok E s.material s.numVertices s.vertexData p h4 hdata
    (by omega) (fun h => by have := hgrow (by omega); omega)
  rw [← hsub] at hq
  refine ⟨_, hq, ?_, ?_, rfl, Nat.mod_eq_of_lt hv⟩
  · intro i x hi hx
    show (_ ++ (_ ++ _))[i]? = _
    rw [List.getElem?_append_left (by rw [hlenA]; exact hi), List.getElem?_take_of_lt hi]
    exact grownBuffer_getElem? _ _ _ _ hx
  · show List.take _ (List.drop _ (_ ++ (_ ++ _))) = _
    rw [List.drop_left' hlenA, List.take_left' hlenD]

/-- Claim C9, instance of the amended statement: 4 more vertices of the pending material 1. -/
theorem drawQuads_same_material_appends_witness :
    ∃ q, submit demoEnv ⟨1, 4, quadBytes⟩ pendingPainter = .ok q ∧
      q.vertexBuffer[3]? = some 4 ∧
      (q.vertexBuffer.drop 16).take 16 = quadBytes.take 16 ∧
      q.bytesPending = 16 + 16 ∧ q.verticesPending = 4 + 4 :=
  let ⟨q, hq, h1, h2, h3, h4⟩ :=
    drawQuads_same_material_appends demoEnv ⟨1, 4, quadBytes⟩ pendingPainter
      (by decide) rfl (by decide) (by decide) (fun _ => by decide)
  ⟨q, hq, h1 3 4 (by decide) rfl, h2, h3, h4⟩

/-- Claim C9, counterexample.  With material 1 (stride 0) pending and
`verticesPending = 2 ^ 64 - 4`, a state reached by one valid submission, a valid submission
of 4 vertices with the same material leaves `verticesPending = 0`: it has not grown by 4. -/
theorem drawQuads_vertex_counter_wraps :
    Submission.valid zeroStrideEnv ⟨1, 2 ^ 64 - 4, []⟩ ∧
    Submission.valid zeroStrideEnv ⟨1, 4, []⟩ ∧
    submit zeroStrideEnv ⟨1, 2 ^ 64 - 4, []⟩ emptyPainter =
      .ok { emptyPainter with materialPending := some 1, verticesPending := 2 ^ 64 - 4 } ∧
    submit zeroStrideEnv ⟨1, 4, []⟩
        { emptyPainter with materialPending := some 1, verticesPending := 2 ^ 64 - 4 } =
      .ok { emptyPainter with materialPending := some 1, verticesPending := 0 } := by
  decide

/-- Claim C11.  Whenever an operation (`startRender`, `drawQuads`, `flush`, `endRender`,
`bind`) returns or throws, the buffer is at least as long after it as before, in every state
reached from a `startRender` and, more generally, in every state whose pending bytes lie
within the buffer; `startRender`, `flush`, `endRender` and `bind` leave the buffer as it is,
so the storage persists across flushes and frames. -/
theorem buffer_never_shrinks (E : Env) (op : Op) (p q : Painter)
    (h : (op.run E p).leaves q) :
    (Reachable E (afterStartRender E) (fun _ => True) p →
      p.vertexBuffer.length ≤ q.vertexBuffer.length) ∧
    (p.bytesPending ≤ p.vertexBuffer.length →
      p.vertexBuffer.length ≤ q.vertexBuffer.length) ∧
    ((∀ material n data, op ≠ .drawQuads material n data) →
      q.vertexBuffer = p.vertexBuffer) := by
  have hmain : p.bytesPending ≤ p.vertexBuffer.length →
      p.vertexBuffer.length ≤ q.vertexBuffer.length := by
    intro hb
    rcases op_leaves h with ⟨hbuf, -⟩ | ⟨m, n, d, p1, -, -, h4, hsel, happ⟩
    · rw [hbuf]
    · obtain ⟨-, hbuf1, hcnt⟩ := hsel
      have hp1 : p1.bytesPending ≤ p1.vertexBuffer.length := by
        rcases hcnt with ⟨-, h2, -⟩ | ⟨-, h2⟩
        · rw [h2, hbuf1]; exact hb
        · rw [h2]; exact Nat.zero_le _
      have hle := (appendVertices_keeps_within h4 hp1 happ).2
      rw [hbuf1] at hle
      exact hle
  refine ⟨fun hp => hmain (reachable_bytesWithin hp), hmain, fun hne => ?_⟩
  rcases op_leaves h with ⟨hbuf, -⟩ | ⟨m, n, d, p1, hop, -⟩
  · exact hbuf
  · exact absurd hop (hne _ _ _)

/-- Claim C11, instance: after `startRender` and one quad of material 1, two more quads grow
the buffer from 32 to 96 bytes; a second quad grows the 16 bytes of `pendingPainter` to 64;
and a flush leaves those 16 bytes in place. -/
theorem buffer_never_shrinks_witness :
    quadPendingPainter.vertexBuffer.length ≤
      ({ quadPendingPainter with
         verticesPending := 12
         bytesPending := 48
         vertexBuffer := quadBytes ++ (quadBytes ++ (quadBytes ++ List.replicate 48 0)) } :
        Painter).vertexBuffer.length ∧
    pendingPainter.vertexBuffer.length ≤ twoQuadsPainter.vertexBuffer.length ∧
    ({ emptyPainter with
       vertexBuffer := quadBytes
       log := executionCalls demoEnv 1 4 quadBytes 0 } : Painter).vertexBuffer =
      pendingPainter.vertexBuffer :=
  ⟨(buffer_never_shrinks demoEnv (.drawQuads (some 1) 8 (some (quadBytes ++ quadBytes)))
      quadPendingPainter
      { quadPendingPainter with
        verticesPending := 12
        bytesPending := 48
        vertexBuffer := quadBytes ++ (quadBytes ++ (quadBytes ++ List.replicate 48 0)) }
      (Or.inl (by decide))).1 (reachable_quadPending afterStartRender_started trivial),
   (buffer_never_shrinks demoEnv (.drawQuads (some 1) 4 (some quadBytes)) pendingPainter
      twoQuadsPainter (Or.inl (by decide))).2.1 (by decide),
   (buffer_never_shrinks demoEnv .flush pendingPainter _ (Or.inl (by decide))).2.2
      (fun _ _ _ => by simp)⟩

/-- Claim C12.  A valid submission whose material is the pending material, or that arrives
when no material is pending, passes lines 55-60 of `drawQuads` without a flush: they only
set the pending material.  The call does not throw, and when it returns the log of calls
and the cached projection are as before, so no call was made and only the buffer, the two
counters and the pending material can have changed.  It returns whenever the sizes stay
below `2 ^ 64`, whether or not the buffer has to grow. -/
theorem drawQuads_same_material_silent (E : Env) (s : Submission) (p : Painter)
    (hs : s.valid E)
    (hm : p.materialPending = some s.material ∨ p.materialPending = none) :
    selectMaterial E (some s.material) p =
      .ok { p with materialPending := some s.material } ∧
    (∀ q, submit E s p ≠ .thrown q) ∧
    (∀ q, submit E s p = .ok q →
      q.log = p.log ∧ q.projection = p.projection ∧
      q.materialPending = some s.material) ∧
    (s.dataSize E + p.bytesPending < SIZE_MOD →
      (p.vertexBuffer.length < s.dataSize E + p.bytesPending →
        2 * (s.dataSize E + p.bytesPending) < SIZE_MOD) →
      ∃ q, submit E s p = .ok q ∧ q.log = p.log ∧ q.projection = p.projection) := by
  have hsel := selectMaterial_silent E s.material p hm
  have hsub : submit E s p =
      appendVertices E (some s.material) s.numVertices s.vertexData
        { p with materialPending := some s.material } := by
    rw [submit_eq E s p hs, hsel]
    rfl
  refine ⟨hsel, ?_, ?_, ?_⟩
  · intro q
    rw [hsub]
    exact appendVertices_not_thrown E _ _ _ _ q
  · intro q hq
    rw [hsub] at hq
    obtain ⟨-, -, -, h4, h5, h6⟩ := appendVertices_ok_fields hq
    exact ⟨h6, h5, h4⟩
  · intro hfit hgrow
    obtain ⟨-, h4, hdata⟩ := hs
    unfold Submission.dataSize at hfit hgrow hdata
    have hg : p.vertexBuffer.length <
          s.numVertices * (E.materials s.material).vertexStride + p.bytesPending →
        (s.numVertices * (E.materials s.material).vertexStride + p.bytesPending) * 2 <
          SIZE_MOD :=
      fun h => by have := hgrow h; omega
    have hq := appendVertices_ok E s.material s.numVertices s.vertexData
      { p with materialPending := some s.material } h4 hdata hfit hg
    rw [← hsub] at hq
    exact ⟨_, hq, rfl, rfl⟩

/-- Claim C12, instance: a second quad of the pending material 1, for which the buffer grows
from 16 to 64 bytes, and a first quad when no material is pending. -/
theorem drawQuads_same_material_silent_witness :
    (∃ q, submit demoEnv ⟨1, 4, quadBytes⟩ pendingPainter = .ok q ∧ q.log = [] ∧
      q.projection = 0) ∧
    submit demoEnv ⟨1, 4, quadBytes⟩ pendingPainter = .ok twoQuadsPainter ∧
    selectMaterial demoEnv (some 1) emptyPainter =
      .ok { emptyPainter with materialPending := some 1 } :=
  ⟨(drawQuads_same_material_silent demoEnv ⟨1, 4, quadBytes⟩ pendingPainter (by decide)
      (Or.inl rfl)).2.2.2 (by decide) (fun _ => by decide),
   by decide,
   (drawQuads_same_material_silent demoEnv ⟨1, 4, quadBytes⟩ emptyPainter (by decide)
      (Or.inr rfl)).1⟩

/-- Claim C13.  In every state reached from a `startRender` by valid operations (`drawQuads`
with a material, a positive multiple of four as vertex count and data that hold all the
bytes, `flush`, `endRender`, `startRender`, `bind`), whether they returned or threw,
`verticesPending` is a multiple of 4 and, for the pending material `m`,
`bytesPending = verticesPending * stride(m)`; buffer and vertex data are arrays in memory,
of fewer than `2 ^ 64` bytes.  Without any condition on the arguments the same holds with
the product as `size_t` arithmetic computes it, reduced modulo `2 ^ 64`. -/
theorem pending_batch_invariant (E : Env) :
    (∀ p,
      Reachable E (fun q => afterStartRender E q ∧ q.vertexBuffer.length < SIZE_MOD)
        (Op.valid E) p →
      p.verticesPending % 4 = 0 ∧
      ∀ m, p.materialPending = some m →
        p.bytesPending = p.verticesPending * (E.materials m).vertexStride) ∧
    (∀ p, Reachable E (afterStartRender E) (fun _ => True) p →
      p.verticesPending % 4 = 0 ∧
      ∀ m, p.materialPending = some m →
        p.bytesPending = (p.verticesPending * (E.materials m).vertexStride) % SIZE_MOD) := by
  constructor
  · intro p hp
    have hinv : batchExact E p :=
      Reachable.invariant (batchExact E) (fun q hq => (afterStartRender_batch hq.1).2 hq.2)
        (fun op p q hop hp hl => batchExact_step hop hp hl) p hp
    exact ⟨hinv.1, hinv.2.2.1⟩
  · intro p hp
    have hinv : batchModular E p :=
      Reachable.invariant (batchModular E) (fun q hq => (afterStartRender_batch hq).1)
        (fun op p q _ hp hl => batchModular_step hp hl) p hp
    exact ⟨hinv.1, hinv.2.2⟩

/-- Claim C13, instance: after `startRender` and one quad of material 1 (stride 4), 4
vertices and 16 bytes are pending, in exact and in `size_t` arithmetic. -/
theorem pending_batch_invariant_witness :
    quadPendingPainter.verticesPending % 4 = 0 ∧
    quadPendingPainter.bytesPending =
      quadPendingPainter.verticesPending * (demoEnv.materials 1).vertexStride ∧
    quadPendingPainter.bytesPending =
      (quadPendingPainter.verticesPending * (demoEnv.materials 1).vertexStride) % SIZE_MOD :=
  have h := (pending_batch_invariant demoEnv).1 quadPendingPainter
    (reachable_quadPending ⟨afterStartRender_started, by decide⟩
      ⟨by decide, by decide, by decide, by decide⟩)
  have k := (pending_batch_invariant demoEnv).2 quadPendingPainter
    (reachable_quadPending afterStartRender_started trivial)
  ⟨h.1, h.2 1 rfl, k.2 1 rfl⟩

/-- Claim C14.  For every byte count `n` that is a multiple of 4, `memcpyAlign` gives the
result of the byte-wise copy `byteCopy` of `n` bytes, whichever word width it selects and
also when an access is out of range; within the bounds of source and buffer it returns a
buffer of the same length in which byte `off + i` is byte `i` of the source for every
`i < n` and every byte before `off` or from `off + n` on is unchanged. -/
theorem memcpyAlign_refines_byteCopy (dst : List Nat) (off : Nat) (src : List Nat) (n : Nat)
    (h4 : n % 4 = 0) :
    memcpyAlign dst off src n = byteCopy dst off src n ∧
    (n ≤ src.length → off + n ≤ dst.length →
      ∃ r, memcpyAlign dst off src n = some r ∧ r.length = dst.length ∧
        (∀ i, i < n → r[off + i]? = src[i]?) ∧
        (∀ j, j < off ∨ off + n ≤ j → r[j]? = dst[j]?)) := by
  constructor
  · by_cases hin : n ≤ src.length ∧ off + n ≤ dst.length
    · rw [memcpyAlign_eq h4 hin.1 hin.2, byteCopy_eq dst off src n hin.1 hin.2]
    · rcases Nat.eq_zero_or_pos n with h0 | h0
      · subst h0
        simp [memcpyAlign, doMemcpyAlign, doMemcpyAlignLoop, byteCopy]
      · rw [byteCopy_none dst off src n h0 hin]
        unfold memcpyAlign doMemcpyAlign
        split
        · next h8 =>
          apply doMemcpyAlignLoop_none 8 src (n / 8) 0 off dst (by omega)
          have hb : n / 8 * 8 = n := by omega
          rw [hb]
          simpa using hin
        · apply doMemcpyAlignLoop_none 4 src (n / 4) 0 off dst (by omega)
          have hb : n / 4 * 4 = n := by omega
          rw [hb]
          simpa using hin
  · intro hs hd
    obtain ⟨h1, h2⟩ := copied_getElem? dst src off n hs hd
    refine ⟨_, memcpyAlign_eq h4 hs hd, ?_, h1, h2⟩
    simp only [List.length_append, List.length_take, List.length_drop]
    omega

/-- Claim C14, instance: 12 bytes (three words of 4 bytes) and 16 bytes (two words of 8
bytes) copied to offset 2 of a buffer of 20 bytes. -/
theorem memcpyAlign_refines_byteCopy_witness :
    memcpyAlign (List.replicate 20 0) 2 quadBytes 12 =
      byteCopy (List.replicate 20 0) 2 quadBytes 12 ∧
    memcpyAlign (List.replicate 20 0) 2 quadBytes 12 =
      some [0, 0, 1, 2, 3, 4, 5, 6, 7, 8, 9, 10, 11, 12, 0, 0, 0, 0, 0, 0] ∧
    memcpyAlign (List.replicate 20 0) 2 quadBytes 16 =
      byteCopy (List.replicate 20 0) 2 quadBytes 16 ∧
    memcpyAlign (List.replicate 20 0) 2 quadBytes 16 =
      some [0, 0, 1, 2, 3, 4, 5, 6, 7, 8, 9, 10, 11, 12, 13, 14, 15, 16, 0, 0] ∧
    (∃ r, memcpyAlign (List.replicate 20 0) 2 quadBytes 16 = some r ∧
      r.length = (List.replicate 20 0).length ∧
      (∀ i, i < 16 → r[2 + i]? = quadBytes[i]?) ∧
      (∀ j, j < 2 ∨ 2 + 16 ≤ j → r[j]? = (List.replicate 20 0)[j]?)) :=
  ⟨(memcpyAlign_refines_byteCopy (List.replicate 20 0) 2 quadBytes 12 (by decide)).1,
   by decide,
   (memcpyAlign_refines_byteCopy (List.replicate 20 0) 2 quadBytes 16 (by decide)).1,
   by decide,
   (memcpyAlign_refines_byteCopy (List.replicate 20 0) 2 quadBytes 16 (by decide)).2
     (by decide) (by decide)⟩

/-- Claim C15, evaluation of the code.  From every prior state `startRender` sets
`verticesPending` and `bytesPending` to 0 and leaves `materialPending` as it was, whether
`doStartRender` returns or throws.  In the run `startRender; drawQuads(1, 4, quadBytes);
startRender` the second `startRender` returns with an empty batch that still holds
material 1; so does the `startRender` that follows a frame whose `endRender` threw in the
vertex upload. -/
theorem startRender_keeps_materialPending (E : Env) (p : Painter) :
    (startRender E p =
        .ok { p with verticesPending := 0, bytesPending := 0,
                     log := p.log ++ [Call.doStartRender] } ∨
      startRender E p =
        .thrown { p with verticesPending := 0, bytesPending := 0,
                         log := p.log ++ [Call.doStartRender] }) ∧
    ((startRender demoEnv emptyPainter).bind fun p1 =>
        (submit demoEnv ⟨1, 4, quadBytes⟩ p1).bind (startRender demoEnv)) =
      .ok { verticesPending := 0, bytesPending := 0, materialPending := some 1,
            vertexBuffer := quadBytes ++ List.replicate 16 0, projection := 0,
            log := [Call.doStartRender, Call.doStartRender] } ∧
    (∃ q, frame uploadFailsEnv [⟨1, 4, quadBytes⟩] emptyPainter = .thrown q ∧
      ∃ r, startRender uploadFailsEnv q = .ok r ∧ r.verticesPending = 0 ∧
        r.bytesPending = 0 ∧ r.materialPending = some 1) :=
  ⟨call_cases E _ _, by decide, ⟨_, rfl, _, rfl, rfl, rfl, rfl⟩⟩

/-- Claim C16.  For every render context, `bind` makes four calls in this order: the render
target's `bind`, `setViewPort` with the context's viewport and a flag that is true exactly
when that viewport differs from the render target's own viewport, the camera's `setViewArea`
with the width and height of the viewport, and the camera's `updateProjection`; when none of
them throws it returns with the camera's projection cached as the painter's projection.
Whether `bind` returns or throws, `verticesPending`, `bytesPending`, `materialPending` and
the buffer are as before. -/
theorem bind_call_sequence (E : Env) (context : RenderContext) (p : Painter) :
    (E.reliable →
      ∃ changed : Bool, (changed = true ↔ context.viewPort ≠ context.targetViewPort) ∧
        bind E context p =
          .ok { p with
                projection := E.cameraProjection context.camera context.viewPort.w
                  context.viewPort.h
                log := p.log ++
                  [Call.renderTargetBind context.renderTarget,
                   Call.setViewPort context.viewPort changed,
                   Call.cameraSetViewArea context.viewPort.w context.viewPort.h,
                   Call.cameraUpdateProjection] }) ∧
    (∀ q, bind E context p = .ok q ∨ bind E context p = .thrown q → accumulatorKept p q) :=
  ⟨fun hE =>
    ⟨decide (context.viewPort ≠ context.targetViewPort), by simp, bind_ok hE context p⟩,
   fun _ hq => bind_accumulatorKept hq⟩

/-- Claim C16, instance: with a pending quad, a context whose viewport is the render target's
viewport gives the flag `false`, another target viewport gives `true`, and the accumulator
is kept. -/
theorem bind_call_sequence_witness :
    (∃ changed : Bool, (changed = true ↔ demoContext.viewPort ≠ demoContext.targetViewPort) ∧
      bind demoEnv demoContext pendingPainter =
        .ok { pendingPainter with
              projection := 7
              log := [Call.renderTargetBind 0, Call.setViewPort ⟨0, 0, 800, 600⟩ changed,
                      Call.cameraSetViewArea 800 600, Call.cameraUpdateProjection] }) ∧
    bind demoEnv demoContext pendingPainter =
      .ok { pendingPainter with
            projection := 7
            log := [Call.renderTargetBind 0, Call.setViewPort ⟨0, 0, 800, 600⟩ false,
                    Call.cameraSetViewArea 800 600, Call.cameraUpdateProjection] } ∧
    bind demoEnv { demoContext with targetViewPort := ⟨0, 0, 1024, 768⟩ } pendingPainter =
      .ok { pendingPainter with
            projection := 7
            log := [Call.renderTargetBind 0, Call.setViewPort ⟨0, 0, 800, 600⟩ true,
                    Call.cameraSetViewArea 800 600, Call.cameraUpdateProjection] } ∧
    accumulatorKept pendingPainter
      { pendingPainter with
        projection := 7
        log := [Call.renderTargetBind 0, Call.setViewPort ⟨0, 0, 800, 600⟩ false,
                Call.cameraSetViewArea 800 600, Call.cameraUpdateProjection] } :=
  ⟨(bind_call_sequence demoEnv demoContext pendingPainter).1 demoEnv_reliable,
   by decide, by decide,
   (bind_call_sequence demoEnv demoContext pendingPainter).2 _ (Or.inl (by decide))⟩

/-- Claim C17.  In every state reached from a `startRender` by operations that returned or
threw, `bytesPending` is at most the size of the buffer.  In exact arithmetic, that is when
`numVertices * stride + bytesPending` and, if the buffer has to grow, twice that sum stay
below `2 ^ 64`, a valid `drawQuads` copies `dataSize = numVertices * stride` bytes to the
range from `bytesPending` to `bytesPending + dataSize`, which lies within the buffer at the
moment of the copy, and the call returns with `bytesPending` at most the size of the
buffer. -/
theorem buffer_bounds_invariant (E : Env) :
    (∀ p, Reachable E (afterStartRender E) (fun _ => True) p →
      p.bytesPending ≤ p.vertexBuffer.length) ∧
    (∀ (s : Submission) (p p1 : Painter), s.valid E →
      selectMaterial E (some s.material) p = .ok p1 →
      s.dataSize E + p1.bytesPending < SIZE_MOD →
      (p1.vertexBuffer.length < s.dataSize E + p1.bytesPending →
        2 * (s.dataSize E + p1.bytesPending) < SIZE_MOD) →
      dataSize E s.material s.numVertices = s.dataSize E ∧
      p1.bytesPending + s.dataSize E ≤
        (bufferAtCopy E s.material s.numVertices p1).length ∧
      ∃ q, submit E s p = .ok q ∧
        q.vertexBuffer.length = (bufferAtCopy E s.material s.numVertices p1).length ∧
        q.bytesPending ≤ q.vertexBuffer.length) := by
  constructor
  · intro p hp
    refine Reachable.invariant (fun p => p.bytesPending ≤ p.vertexBuffer.length) ?_
      (fun op p q _ hp hl => bytesWithin_step hp hl) p hp
    rintro q ⟨p0, hq⟩
    unfold startRender at hq
    rw [call_result hq]
    exact Nat.zero_le _
  · intro s p p1 hs hsel hfit hgrow
    have hs1 := hs
    obtain ⟨-, h4, hdata⟩ := hs
    unfold Submission.dataSize at hfit hgrow hdata ⊢
    have hds : dataSize E s.material s.numVertices =
        s.numVertices * (E.materials s.material).vertexStride :=
      Nat.mod_eq_of_lt (by omega)
    have hreq : requiredSize E s.material s.numVertices p1 =
        s.numVertices * (E.materials s.material).vertexStride + p1.bytesPending := by
      unfold requiredSize
      rw [hds]
      exact Nat.mod_eq_of_lt hfit
    have hin : p1.bytesPending + s.numVertices * (E.materials s.material).vertexStride ≤
        (bufferAtCopy E s.material s.numVertices p1).length := by
      unfold bufferAtCopy
      rw [hreq]
      split
      · next hlt =>
        have := hgrow hlt
        rw [length_resize, Nat.mod_eq_of_lt (by omega)]
        omega
      · omega
    have hsub : submit E s p =
        appendVertices E (some s.material) s.numVertices s.vertexData p1 := by
      rw [submit_eq E s p hs1, hsel]
      rfl
    have hq := appendVertices_ok E s.material s.numVertices s.vertexData p1 h4 hdata hfit
      (fun h => by have := hgrow h; omega)
    obtain ⟨hcopy, -, hqb, -, -, -⟩ := appendVertices_ok_fields hq
    have hqlen := memcpyAlign_length hcopy
    rw [← hsub] at hq
    refine ⟨hds, hin, _, hq, hqlen, ?_⟩
    rw [hqlen, hqb, hds]
    exact Nat.le_trans (Nat.mod_le _ _) hin

/-- Claim C17, instance: after `startRender` and one quad of material 1, 16 bytes are pending
in a buffer of 32 bytes; the next quad is copied to the range from 16 to 32, within the 32
bytes of the buffer. -/
theorem buffer_bounds_invariant_witness :
    quadPendingPainter.bytesPending ≤ quadPendingPainter.vertexBuffer.length ∧
    quadPendingPainter.bytesPending + (⟨1, 4, quadBytes⟩ : Submission).dataSize demoEnv ≤
      (bufferAtCopy demoEnv 1 4 quadPendingPainter).length :=
  ⟨(buffer_bounds_invariant demoEnv).1 quadPendingPainter
      (reachable_quadPending afterStartRender_started trivial),
   ((buffer_bounds_invariant demoEnv).2 ⟨1, 4, quadBytes⟩ quadPendingPainter
      quadPendingPainter (by decide) (by decide) (by decide) (fun _ => by decide)).2.1⟩

/-- Claim C18.  In every state reached from a painter with no pending material and no pending
vertex by `startRender`, `flush`, `endRender`, `bind` and `drawQuads` calls that returned or
threw, pending vertices imply a pending material, so `flushPending` does not dereference a
null `materialPending`: it does not fault. -/
theorem pending_vertices_have_material (E : Env) (p : Painter)
    (h : Reachable E fresh (fun _ => True) p) :
    (0 < p.verticesPending → ∃ m, p.materialPending = some m) ∧
    flushPending E p ≠ .fault := by
  have hinv : p.materialPending = none → p.verticesPending = 0 :=
    Reachable.invariant (fun p => p.materialPending = none → p.verticesPending = 0)
      (fun p hp _ => hp.2) (fun op p q _ hp hl => noMaterial_step hp hl) p h
  have h1 : 0 < p.verticesPending → ∃ m, p.materialPending = some m := by
    intro hv
    cases hm : p.materialPending with
    | none =>
      have := hinv hm
      omega
    | some m => exact ⟨m, rfl⟩
  exact ⟨h1, flushPending_not_fault E p h1⟩

/-- Claim C18, instance: after `startRender` and one quad of material 1, 4 vertices are
pending and material 1 is pending. -/
theorem pending_vertices_have_material_witness :
    (∃ m, quadPendingPainter.materialPending = some m) ∧
    flushPending demoEnv quadPendingPainter ≠ .fault :=
  have h := pending_vertices_have_material demoEnv quadPendingPainter
    (reachable_quadPending ⟨rfl, rfl⟩ trivial)
  ⟨h.1 (by decide), h.2⟩

/-- Claim C19.  For every `numVertices` that is a multiple of 4 and every stride, the product
`numVertices * stride` is a multiple of 4 and so is `dataSize`, the product reduced modulo
`2 ^ 64`; the words `memcpyAlign` copies (`dataSize / 8` words of 8 bytes when `dataSize` is a
multiple of 8, else `dataSize / 4` words of 4 bytes) make up exactly `dataSize` bytes; and
within the bounds of source and buffer `memcpyAlign` writes the first `dataSize` bytes of
the source at the offset and nothing else. -/
theorem dataSize_multiple_of_four (E : Env) (m n : Nat) (h4 : n % 4 = 0) :
    (n * (E.materials m).vertexStride) % 4 = 0 ∧ dataSize E m n % 4 = 0 ∧
    (if dataSize E m n % 8 = 0 then dataSize E m n / 8 * 8 else dataSize E m n / 4 * 4) =
      dataSize E m n ∧
    ∀ dst off src, dataSize E m n ≤ List.length src → off + dataSize E m n ≤ List.length dst →
      memcpyAlign dst off src (dataSize E m n) =
        some (dst.take off ++ (src.take (dataSize E m n) ++ dst.drop (off + dataSize E m n))) := by
  have h1 : (n * (E.materials m).vertexStride) % 4 = 0 := by
    rw [Nat.mul_mod, h4]; simp
  have h2 : dataSize E m n % 4 = 0 := by
    unfold dataSize SIZE_MOD
    omega
  refine ⟨h1, h2, ?_, fun dst off src hs hd => memcpyAlign_eq h2 hs hd⟩
  split <;> omega

/-- Claim C19, instance: 4 vertices of stride 5 are 20 bytes, copied as five words of 4
bytes; 8 vertices of stride `2 ^ 62 + 1` are `2 ^ 65 + 8` bytes, reduced to 8. -/
theorem dataSize_multiple_of_four_witness :
    dataSize unalignedEnv 1 4 = 20 ∧ dataSize unalignedEnv 1 4 % 4 = 0 ∧
    memcpyAlign (List.replicate 24 0) 4 (List.range 20) (dataSize unalignedEnv 1 4) =
      some ((List.replicate 24 0).take 4 ++
        ((List.range 20).take (dataSize unalignedEnv 1 4) ++
          (List.replicate 24 0).drop (4 + dataSize unalignedEnv 1 4))) ∧
    8 * (unalignedEnv.materials 2).vertexStride = 2 ^ 65 + 8 ∧
    dataSize unalignedEnv 2 8 = 8 ∧ dataSize unalignedEnv 2 8 % 4 = 0 :=
  ⟨by decide, (dataSize_multiple_of_four unalignedEnv 1 4 (by decide)).2.1,
   (dataSize_multiple_of_four unalignedEnv 1 4 (by decide)).2.2.2 _ 4 _ (by decide) (by decide),
   by decide, by decide, (dataSize_multiple_of_four unalignedEnv 2 8 (by decide)).2.1⟩

/-- Claim C20.  When no call throws, flushing a pending batch (`verticesPending > 0`) whose
material has a pass count of zero or below returns normally: `executeDrawQuads` assigns
`u_mvp` and uploads the vertices and makes no other call, so no pass is bound and nothing is
drawn, and `flush` then resets both counters and the pending material. -/
theorem flush_material_without_passes (E : Env) (hE : E.reliable) (p : Painter) (m : Nat)
    (hv : 0 < p.verticesPending) (hm : p.materialPending = some m)
    (hpass : (E.materials m).numPasses ≤ 0) :
    executeDrawQuads E m p.verticesPending p.vertexBuffer p =
      .ok { p with log := p.log ++
              [Call.executeDrawQuads m p.verticesPending p.vertexBuffer,
               Call.setUMvp m p.projection,
               Call.setVertices m p.verticesPending p.vertexBuffer] } ∧
    flush E p =
      .ok { p with bytesPending := 0, verticesPending := 0, materialPending := none,
                   log := p.log ++
                     [Call.executeDrawQuads m p.verticesPending p.vertexBuffer,
                      Call.setUMvp m p.projection,
                      Call.setVertices m p.verticesPending p.vertexBuffer] } := by
  have h0 : (E.materials m).numPasses.toNat = 0 := Int.toNat_eq_zero.mpr hpass
  have hcalls : executionCalls E m p.verticesPending p.vertexBuffer p.projection =
      [Call.executeDrawQuads m p.verticesPending p.vertexBuffer,
       Call.setUMvp m p.projection,
       Call.setVertices m p.verticesPending p.vertexBuffer] := by
    simp [executionCalls, h0, passCalls]
  constructor
  · rw [executeDrawQuads_ok hE, hcalls]
  · rw [flush, flushPending_ok hE p m hv hm, hcalls]

/-- Claim C20, instance: one pending quad of a material with zero passes, and of a material
with a pass count of -1. -/
theorem flush_material_without_passes_witness :
    flush passlessEnv pendingPainter =
      .ok { emptyPainter with
            vertexBuffer := quadBytes
            log := [Call.executeDrawQuads 1 4 quadBytes, Call.setUMvp 1 0,
                    Call.setVertices 1 4 quadBytes] } ∧
    flush passlessEnv { pendingPainter with materialPending := some 2 } =
      .ok { emptyPainter with
            vertexBuffer := quadBytes
            log := [Call.executeDrawQuads 2 4 quadBytes, Call.setUMvp 2 0,
                    Call.setVertices 2 4 quadBytes] } :=
  ⟨(flush_material_without_passes passlessEnv passlessEnv_reliable pendingPainter 1
      (by decide) rfl (by decide)).2,
   (flush_material_without_passes passlessEnv passlessEnv_reliable
      { pendingPainter with materialPending := some 2 } 2 (by decide) rfl (by decide)).2⟩

end Halley
